import Mathlib

/-!
Verification of the route-optimization core of the Route_Planner repository.

The Python source (`src/route_planner/app.py`) is shallowly embedded:
Python floats become rationals (for the tour solvers) or reals (for the
geographic computations, which use transcendental functions), Python lists
become `List`, fallible code returns `Option`/`Except`, and `float("inf")`
becomes `⊤` in `WithTop ℚ`.  Calls into external libraries (networkx,
osmnx, shapely) are abstracted as explicit function parameters; everything
else is translated from the repository's own code.
-/

namespace RoutePlanner

/-- Distances extended with `float("inf")`. -/
abbrev Cost := WithTop ℚ

/-- Reading `D[i][j]` from a Python list-of-lists distance matrix.
Out-of-range indices default to `0`; all theorems only use in-range
accesses, matching the source which never indexes out of range on the
inputs it is run on. -/
def entryD (D : List (List ℚ)) (i j : Nat) : ℚ := (D.getD i []).getD j 0

/-!  ## Held-Karp exact solver (`held_karp_tsp`, app.py lines 2210-2282)

The source builds a dict `dp[(mask, j)]` by iterating over masks in
increasing order; a dict entry depends only on entries at strictly smaller
masks, so the table is modelled by a fuel-indexed recursion on the mask
(`dpF`), with missing dict keys mapped to `⊤` (`float("inf")` via
`dp.get(..., inf)`).  `bestStep`/inner `foldl` is the source's
`for k in range(n): if prev_mask & (1 << k): ...` minimum-tracking loop,
which also records the argmin in `parent[(mask, j)]` (`best_k`). -/

/-- One step of the source's minimum/argmin tracking loop:
`if candidate < best: best, best_k = candidate, k`. -/
def bestStep (c : Nat → Cost) (p : Nat → Bool) (acc : Cost × Option Nat) (k : Nat) :
    Cost × Option Nat :=
  if p k then (if c k < acc.1 then (c k, some k) else acc) else acc

/-- The full minimum/argmin scan, starting from `best = inf`, `best_k = None`. -/
def bestOver (L : List Nat) (c : Nat → Cost) (p : Nat → Bool) : Cost × Option Nat :=
  L.foldl (bestStep c p) (⊤, none)

/-- The Held-Karp table `(dp[(mask, j)], parent[(mask, j)])`, with `⊤` for
keys absent from the dict.  `fuel` only bounds the recursion depth; all
uses take `fuel > mask` (see `dpF_stable`). -/
def dpF (d : Nat → Nat → ℚ) (n : Nat) : Nat → Nat → Nat → Cost × Option Nat
  | 0, _, _ => (⊤, none)
  | fuel + 1, mask, j =>
    if mask = 1 ∧ j = 0 then (((0 : ℚ) : Cost), none)
    else if mask % 2 = 1 ∧ 1 ≤ j ∧ j < n ∧ mask.testBit j = true then
      let pm := mask ^^^ (1 <<< j)
      bestOver (List.range n) (fun k => (dpF d n fuel pm k).1 + ((d k j : ℚ) : Cost))
        (fun k => pm.testBit k)
    else (⊤, none)

/-- Canonical table entry: `dpF` at any sufficient fuel. -/
def hkDP (d : Nat → Nat → ℚ) (n mask j : Nat) : Cost × Option Nat :=
  dpF d n (mask + 1) mask j

/-- `dp[(mask, j)]` (with `⊤` for absent keys). -/
def dpv (d : Nat → Nat → ℚ) (n mask j : Nat) : Cost := (hkDP d n mask j).1

/-- `parent[(mask, j)]` (with `none` for absent keys / stored `None`). -/
def hkParent (d : Nat → Nat → ℚ) (n mask j : Nat) : Option Nat := (hkDP d n mask j).2

/-- The source's tour-reconstruction loop
(`while j != 0: tour_reversed.append(j); ...`), returning the sequence of
appended vertices; `none` models a `KeyError` on a missing parent pointer.
`fuel` bounds the loop (every pass removes bit `j` from `mask`, so
`fuel ≥ mask` suffices). -/
def loopListF (par : Nat → Nat → Option Nat) : Nat → Nat → Nat → Option (List Nat)
  | 0, _, j => if j = 0 then some [] else none
  | fuel + 1, mask, j =>
    if j = 0 then some []
    else if mask.testBit j then
      match par mask j with
      | some k => (loopListF par fuel (mask ^^^ (1 <<< j)) k).map (fun r => j :: r)
      | none => none
    else none

/-- One comparison step of Python's `min` over `(distance, j)` tuples:
tuples compare lexicographically and `min` keeps the earlier item on ties. -/
def lexStep (acc q : Cost × Nat) : Cost × Nat :=
  if q.1 < acc.1 ∨ (q.1 = acc.1 ∧ q.2 < acc.2) then q else acc

/-- Python's `min` over a list of `(distance, j)` pairs: lexicographic,
first minimum wins; `none` models the `ValueError` on an empty sequence. -/
def lexMin : List (Cost × Nat) → Option (Cost × Nat)
  | [] => none
  | x :: xs => some (xs.foldl lexStep x)

/-- `held_karp_tsp` (app.py 2210-2282).  Returns the reconstructed tour
`list(reversed(tour_reversed))` and `best_distance`; `none` models the
uncaught exceptions of the source (`min` of an empty sequence for
`n < 2`, `KeyError`/divergence in reconstruction). -/
def held_karp_tsp (D : List (List ℚ)) : Option (List Nat × Cost) :=
  let n := D.length
  let d : Nat → Nat → ℚ := fun i j => entryD D i j
  let full := 2 ^ n - 1
  (lexMin (((List.range n).drop 1).map
      (fun j => (dpv d n full j + ((d j 0 : ℚ) : Cost), j)))).bind
    (fun y => (loopListF (fun m j => hkParent d n m j) full full y.2).map
      (fun r => (((0 :: r) ++ [0]).reverse, y.1)))

/-!  ## Greedy nearest-neighbor fallback (`_nearest_neighbor_fallback`,
app.py lines 2175-2207). -/

/-- Python's `min(unvisited, key=lambda x: D[current][x])`: the first
element attaining the minimal key (CPython iterates a set of small ints in
ascending order, and `min` keeps the earlier element on ties). -/
def argminKey (f : Nat → ℚ) (l : List Nat) (x : Nat) : Nat :=
  l.foldl (fun best y => if f y < f best then y else best) x

/-- The `while unvisited:` greedy loop.  `fuel` bounds the iteration count:
each pass removes the chosen element, so `fuel ≥ unvisited.length`
suffices; the fuel-exhausted branch is never reached at the call site. -/
def nnLoop (d : Nat → Nat → ℚ) :
    Nat → List Nat → Nat → List Nat → ℚ → List Nat × ℚ
  | _, [], current, tour, total => (tour ++ [0], total + d current 0)
  | 0, _ :: _, current, tour, total => (tour ++ [0], total + d current 0)
  | fuel + 1, u :: us, current, tour, total =>
    let nearest := argminKey (d current) us u
    nnLoop d fuel ((u :: us).erase nearest) nearest
      (tour ++ [nearest]) (total + d current nearest)

/-- `_nearest_neighbor_fallback` (app.py 2175-2207). -/
def _nearest_neighbor_fallback (D : List (List ℚ)) : List Nat × ℚ :=
  let n := D.length
  if n = 0 then ([], 0)
  else if n = 1 then ([0, 0], 0)
  else nnLoop (entryD D) n ((List.range n).drop 1) 0 [0] 0

/-!  ## Christofides front-end (`christofides_tsp`, app.py lines 2081-2172)

The validation prefix (empty / too-few-nodes / non-square checks) runs
before the `try` block and its exceptions propagate to the caller.  The
negative-distance `ValueError` is raised inside the `try` block while the
complete graph is being built, before any spanning-tree/matching/circuit
work; the graph-library pipeline (steps 1-6: MST, matching, Eulerian
circuit, shortcutting) is external networkx code and is abstracted as the
`pipeline` parameter.  Both `except` clauses map any exception raised
inside the `try` block to `_nearest_neighbor_fallback(D)`. -/

def christofides_tsp (pipeline : List (List ℚ) → Except Unit (List Nat × ℚ))
    (D : List (List ℚ)) : Except String (List Nat × ℚ) :=
  if D.length = 0 then Except.error "Distance matrix cannot be empty"
  else
    let n := D.length
    if n < 2 then Except.error "Need at least 2 nodes for TSP"
    else if (D.any (fun row => row.length ≠ n)) then
      Except.error "Distance matrix must be square"
    else if (List.range n).any
        (fun i => (List.range n).any (fun j => i < j ∧ entryD D i j < 0)) then
      -- ValueError raised inside the try block, caught by `except Exception`
      Except.ok (_nearest_neighbor_fallback D)
    else
      match pipeline D with
      | Except.ok r => Except.ok r
      | Except.error _ => Except.ok (_nearest_neighbor_fallback D)

/-- Cost of a walk: `sum(D[t[i]][t[i+1]] for i in range(len(t)-1))`. -/
def pathCost (d : Nat → Nat → ℚ) : List Nat → ℚ
  | a :: b :: rest => d a b + pathCost d (b :: rest)
  | _ => 0

/-- A structurally valid tour over `n` indices: starts and ends at the
depot `0` and visits every other index exactly once. -/
def IsValidTour (n : Nat) (t : List Nat) : Prop :=
  ∃ m, t = 0 :: (m ++ [0]) ∧ m.Nodup ∧ m.length = n - 1 ∧ ∀ x ∈ m, 1 ≤ x ∧ x < n

/-- A simple path that starts at the depot, ends at `j`, and visits exactly
the vertex set encoded by `mask`: the meaning of a Held-Karp state. -/
def ValidPath (n mask j : Nat) (p : List Nat) : Prop :=
  p ≠ [] ∧ p.head? = some 0 ∧ p.getLast? = some j ∧ p.Nodup ∧
    ∀ x, x ∈ p ↔ mask.testBit x = true

/-!  ## Worker algorithm selection (claim C4) -/

/-- `MAX_STOPS_EXACT_ALGORITHM` (default configuration, app.py line 1111). -/
def MAX_STOPS_EXACT_ALGORITHM : Nat := 12

inductive Algorithm where
  | heldKarp
  | christofides
deriving DecidableEq

/-- The algorithm dispatch of `Worker.run` (app.py 2378-2396): mode 1 and 2
force an algorithm; any other mode is "auto" and compares
`n = len(self.coords)` (the full coordinate list) with the threshold. -/
def selectAlgorithm (mode : Nat) (n : Nat) : Algorithm :=
  if mode = 1 then Algorithm.heldKarp
  else if mode = 2 then Algorithm.christofides
  else if n ≤ MAX_STOPS_EXACT_ALGORITHM then Algorithm.heldKarp
  else Algorithm.christofides

/-- `PlannerUI._get_coordinates(include_hq=True)` (app.py 3005-3031): the
coordinate list handed to the worker is HQ followed by the delivery stops. -/
def getCoordinates (hq : ℚ × ℚ) (stops : List (ℚ × ℚ)) : List (ℚ × ℚ) :=
  hq :: stops

/-!  ## Haversine distance and the distance matrix (claims C6 and C10)

`haversine_distance` (app.py 1699-1752) uses the transcendental functions
of Python's `math` module, so this part of the embedding lives in `ℝ`;
`math.atan2` is modelled as the complex argument.  `distance_matrix`
(app.py 2006-2073) calls networkx Dijkstra routines, abstracted as a
shortest-path-distance oracle `spd` (`none` = no path, triggering the
haversine substitution); node positions `g.nodes[v]['y'], g.nodes[v]['x']`
are the oracle `pos` (latitude, longitude).  Both the n ≤ 20 all-pairs
branch and the per-source branch write each unordered pair `(i, j)`,
`i < j`, exactly once via `D[i][j] = D[j][i] = value`, leaving the
zero-initialized diagonal untouched; the fold below is that common
write pattern. -/

/-- `math.atan2 y x`, modelled as the argument of the complex number
`x + y*I` (the standard mathematical definition of `atan2`). -/
noncomputable def atan2 (y x : ℝ) : ℝ := Complex.arg ⟨x, y⟩

/-- `math.radians`. -/
noncomputable def radians (x : ℝ) : ℝ := x * Real.pi / 180

/-- `haversine_distance` (app.py 1699-1752): great-circle distance in
kilometers, Earth radius 6371.0 km. -/
noncomputable def haversine_distance (p1 p2 : ℝ × ℝ) : ℝ :=
  let lat1 := radians p1.1
  let lon1 := radians p1.2
  let lat2 := radians p2.1
  let lon2 := radians p2.2
  let dlat := lat2 - lat1
  let dlon := lon2 - lon1
  let a := Real.sin (dlat / 2) ^ 2 +
    Real.cos lat1 * Real.cos lat2 * Real.sin (dlon / 2) ^ 2
  let c := 2 * atan2 (Real.sqrt a) (Real.sqrt (1 - a))
  6371.0 * c

/-- Reading `D[a][b]` from an ℝ-valued matrix. -/
def entryR (M : List (List ℝ)) (a b : Nat) : ℝ := (M.getD a []).getD b 0

/-- Python `D[i][j] = x`. -/
def setEntry (M : List (List ℝ)) (i j : Nat) (x : ℝ) : List (List ℝ) :=
  M.set i ((M.getD i []).set j x)

/-- The pairs `(i, j)` with `i < j < n`, in the source's nested-loop order. -/
def orderedPairs (n : Nat) : List (Nat × Nat) :=
  (List.range n).bind
    (fun i => ((List.range n).filter (fun j => i < j)).map (fun j => (i, j)))

/-- The per-pair distance: the library shortest-path distance when a path
exists, otherwise the haversine distance converted from km to m. -/
noncomputable def pairDistance (spd : Nat → Nat → Option ℝ) (pos : Nat → ℝ × ℝ)
    (nodes : List Nat) (i j : Nat) : ℝ :=
  match spd (nodes.getD i 0) (nodes.getD j 0) with
  | some L => L
  | none => haversine_distance (pos (nodes.getD i 0)) (pos (nodes.getD j 0)) * 1000

/-- `distance_matrix` (app.py 2006-2073): a zero-initialized n×n matrix
with `D[i][j] = D[j][i] = pairDistance i j` written once per unordered
pair. -/
noncomputable def distance_matrix (spd : Nat → Nat → Option ℝ) (pos : Nat → ℝ × ℝ)
    (nodes : List Nat) : List (List ℝ) :=
  let n := nodes.length
  (orderedPairs n).foldl
    (fun M p =>
      setEntry (setEntry M p.1 p.2 (pairDistance spd pos nodes p.1 p.2))
        p.2 p.1 (pairDistance spd pos nodes p.1 p.2))
    (List.replicate n (List.replicate n (0 : ℝ)))

/-- Well-formedness: an n×n matrix. -/
def MatWF (M : List (List ℝ)) (n : Nat) : Prop :=
  M.length = n ∧ ∀ row ∈ M, row.length = n

/-!  ## Coordinate-to-node resolution (claim C8)

`get_graph_and_nodes` (app.py 1955-1992) resolves each coordinate to a
distinct graph node via a jitter-and-retry loop.  The osmnx nearest-node
lookups (whose result depends on the jittered query point, hence on the
`random` stream) are abstracted as an oracle `query idx attempt`; the
batch lookup `nodes[idx]` used by the escape hatch is `orig idx`; the
random displacement applied to the stored node position on escape is
`disp idx`.  Node ids are natural numbers, positions `(x, y)` pairs. -/

/-- The retry loop for one coordinate (`while True:` at app.py 1961).
Returns the chosen node and whether the 20-retry escape hatch fired.
Attempt `jitter` fails if the node is already taken; the counter is then
incremented and the loop escapes once it exceeds 20. -/
def resolveLoop (seen : List Nat) (query : Nat → Nat) (orig : Nat) (jitter : Nat) :
    Nat × Bool :=
  let node := query jitter
  if node ∉ seen then (node, false)
  else if 20 < jitter + 1 then (orig, true)
  else resolveLoop seen query orig (jitter + 1)
termination_by 21 - jitter
decreasing_by
  rename_i h
  omega

/-- State of the resolution pass: taken nodes, per-coordinate results
(node, escape-hatch flag), and the graph's stored node positions. -/
structure ResolveState where
  seen : List Nat
  assigned : List (Nat × Bool)
  pos : Nat → ℝ × ℝ

/-- Processing one coordinate (loop body at app.py 1959-1990): a fresh
node is recorded in `seen`; on escape the original nearest node is
accepted without being added to `seen` and its stored position is
displaced by the random offset. -/
def resolveStep (query : Nat → Nat → Nat) (orig : Nat → Nat) (disp : Nat → ℝ × ℝ)
    (st : ResolveState) (idx : Nat) : ResolveState :=
  let res := resolveLoop st.seen (query idx) (orig idx) 0
  if res.2 then
    { seen := st.seen
      assigned := st.assigned ++ [res]
      pos := fun v => if v = res.1
        then ((st.pos res.1).1 + (disp idx).1, (st.pos res.1).2 + (disp idx).2)
        else st.pos v }
  else
    { seen := st.seen ++ [res.1]
      assigned := st.assigned ++ [res]
      pos := st.pos }

/-- The whole resolution pass over the input coordinates. -/
def resolveNodes (query : Nat → Nat → Nat) (orig : Nat → Nat) (disp : Nat → ℝ × ℝ)
    (pos0 : Nat → ℝ × ℝ) (count : Nat) : ResolveState :=
  (List.range count).foldl (resolveStep query orig disp) ⟨[], [], pos0⟩

/-- The invariant carried over the resolution fold. -/
def ResolveInv (orig : Nat → Nat) (processed : Nat) (st : ResolveState) : Prop :=
  st.assigned.length = processed ∧
  (∀ (i : Nat) (e : Nat × Bool), st.assigned[i]? = some e →
    e.2 = false → e.1 ∈ st.seen) ∧
  (∀ (i : Nat) (e : Nat × Bool), st.assigned[i]? = some e →
    e.2 = true → e.1 = orig i) ∧
  (∀ (i j : Nat) (ei ej : Nat × Bool), i < j →
    st.assigned[i]? = some ei → st.assigned[j]? = some ej →
    ei.2 = false → ej.2 = false → ei.1 ≠ ej.1)

/-!  ## Offline fallback graph (claim C9)

`get_graph_and_nodes` (app.py 1889-2002): the coordinate components are
unpacked (`lats, lons = zip(*coords)`, which raises on an empty list and
runs before any fetch), the road network is requested from osmnx inside a
`try` whose `except` builds `nx.complete_graph(len(coords))` with each
node's `x`/`y` set from the coordinate and returns node ids `0..n-1`; on a
successful fetch the function continues with nearest-node resolution.  The
external fetch is abstracted as `fetch` (`none` = the fetch raised, e.g.
no connectivity or a service error) and the successful-fetch continuation
as `resolve`. -/

structure EmbGraph where
  nodeIds : List Nat
  edges : List (Nat × Nat)
  x : Nat → ℝ
  y : Nat → ℝ

/-- `nx.complete_graph(n)` followed by the attribute loop of the fallback
branch (app.py 1935-1938): nodes `0..n-1`, every unordered pair an edge,
`x = lon`, `y = lat`. -/
def fallbackGraph (coords : List (ℝ × ℝ)) : EmbGraph :=
  let n := coords.length
  { nodeIds := List.range n
    edges := orderedPairs n
    x := fun i => (coords.getD i (0, 0)).2
    y := fun i => (coords.getD i (0, 0)).1 }

/-- `get_graph_and_nodes` (app.py 1889-2002), top-level control flow. -/
def get_graph_and_nodes (fetch : Option EmbGraph)
    (resolve : EmbGraph → EmbGraph × List Nat) (coords : List (ℝ × ℝ)) :
    Except String (EmbGraph × List Nat) :=
  if coords.length = 0 then Except.error "not enough values to unpack"
  else
    match fetch with
    | none => Except.ok (fallbackGraph coords, List.range coords.length)
    | some g => Except.ok (resolve g)

/-!  ## Graph serialization round trip (claims C5)

`networkx_to_serializable` / `serializable_to_networkx` (app.py 1318-1475).
Python values are modelled as follows: JSON-serializable attribute values
(those for which the `json.dumps` probe succeeds) are `JVal`; shapely
geometries are identified by their WKT text (`wkt_loads (x.wkt) = x`);
sets by their iteration order as a list; opaque objects with `__dict__` by
their `str()` form.  Node ids are Python ints or strings.  The serialized
node table is a string-keyed insertion-ordered dict, modelled as an
association list (faithful when the stringified ids are distinct, which
the round-trip theorem assumes).  The deserializer returns `Option`
because Python's can raise on malformed payloads (treated as a cache miss
upstream). -/

inductive JVal where
  | null
  | b (v : Bool)
  | num (q : ℚ)
  | s (v : String)
  | arr (l : List JVal)
  | dict (kvs : List (String × JVal))

inductive PyAttr where
  | val (j : JVal)
  | geom (wkt : String)
  | setV (elems : List JVal)
  | obj (str : String)

/-- Python `str(node)` for int or string node ids. -/
def pyStr : Int ⊕ String → String
  | Sum.inl n => toString n
  | Sum.inr s => s

/-- Python `str.isdigit` (for ASCII digit strings). -/
def isdigit (s : String) : Bool :=
  !s.toList.isEmpty && s.toList.all (fun c => c.isDigit)

/-- Python `int(s)` on a digit string. -/
def strToNat (s : String) : Nat :=
  s.toList.foldl (fun acc c => acc * 10 + (c.toNat - 48)) 0

/-- `int(node_id) if node_id.isdigit() else node_id` (app.py 1458, 1464). -/
def restoreId (s : String) : Int ⊕ String :=
  if isdigit s then Sum.inl (strToNat s) else Sum.inr s

/-- `make_serializable` (app.py 1352-1365), applied when the `json.dumps`
probe fails; a `val` passes the probe and is stored as-is. -/
def serializeAttr : PyAttr → JVal
  | PyAttr.val j => j
  | PyAttr.geom w => JVal.dict [("__geometry__", JVal.s w)]
  | PyAttr.setV l => JVal.dict [("__set__", JVal.arr l)]
  | PyAttr.obj s => JVal.dict [("__object__", JVal.s s)]

/-- Key lookup in a Python dict modelled as an association list. -/
def lookupKey (kvs : List (String × JVal)) (k : String) : Option JVal :=
  (kvs.find? (fun p => p.1 == k)).map Prod.snd

/-- `restore_object` (app.py 1435-1448).  `none` models the exceptions
`wkt_loads`/`set` would raise on ill-typed magic values. -/
def restore_object : JVal → Option PyAttr
  | JVal.dict kvs =>
    match lookupKey kvs "__geometry__" with
    | some (JVal.s w) => some (PyAttr.geom w)
    | some _ => none
    | none =>
      match lookupKey kvs "__set__" with
      | some (JVal.arr l) => some (PyAttr.setV l)
      | some _ => none
      | none =>
        match lookupKey kvs "__object__" with
        | some (JVal.s s) => some (PyAttr.val (JVal.s s))
        | some _ => none
        | none => some (PyAttr.val (JVal.dict kvs))
  | j => some (PyAttr.val j)

structure PyGraph where
  nodes : List ((Int ⊕ String) × List (String × PyAttr))
  edges : List ((Int ⊕ String) × (Int ⊕ String) × List (String × PyAttr))

structure SerializedGraph where
  nodes : List (String × List (String × JVal))
  edges : List (String × String × List (String × JVal))

def serializeAttrs (attrs : List (String × PyAttr)) : List (String × JVal) :=
  attrs.map (fun p => (p.1, serializeAttr p.2))

/-- `networkx_to_serializable` (app.py 1318-1401). -/
def networkx_to_serializable (g : PyGraph) : SerializedGraph :=
  { nodes := g.nodes.map (fun p => (pyStr p.1, serializeAttrs p.2))
    edges := g.edges.map (fun e => (pyStr e.1, pyStr e.2.1, serializeAttrs e.2.2)) }

/-- Mapping a fallible function over a list, failing if any element fails
(the loop bodies of the deserializer propagate exceptions). -/
def optMap {α β : Type} (f : α → Option β) : List α → Option (List β)
  | [] => some []
  | a :: t =>
    match f a, optMap f t with
    | some b, some bt => some (b :: bt)
    | _, _ => none

def restoreAttrs (kvs : List (String × JVal)) : Option (List (String × PyAttr)) :=
  optMap (fun p => (restore_object p.2).map (fun a => (p.1, a))) kvs

/-- `serializable_to_networkx` (app.py 1403-1475). -/
def serializable_to_networkx (data : SerializedGraph) : Option PyGraph :=
  (optMap (fun p => (restoreAttrs p.2).map (fun attrs => (restoreId p.1, attrs)))
      data.nodes).bind
    (fun ns =>
      (optMap (fun e => (restoreAttrs e.2.2).map
          (fun attrs => (restoreId e.1, restoreId e.2.1, attrs))) data.edges).map
        (fun es => { nodes := ns, edges := es }))

/-- Attributes the round trip restores exactly: everything except opaque
objects, provided a plain dict value does not itself carry one of the
serializer's magic keys. -/
def TameAttr : PyAttr → Prop
  | PyAttr.obj _ => False
  | PyAttr.val (JVal.dict kvs) =>
    lookupKey kvs "__geometry__" = none ∧ lookupKey kvs "__set__" = none ∧
      lookupKey kvs "__object__" = none
  | _ => True

/-!  ## Theorems -/

/-!  ### Bit-level helpers -/

theorem testBit_xor_pow (mask j x : Nat) :
    (mask ^^^ (1 <<< j)).testBit x = ((mask.testBit x).xor (decide (j = x))) := by
  rw [Nat.one_shiftLeft, Nat.testBit_xor, Nat.testBit_two_pow]

theorem testBit_xor_pow_self (mask j : Nat) (h : mask.testBit j = true) :
    (mask ^^^ (1 <<< j)).testBit j = false := by
  rw [testBit_xor_pow, h]
  simp

theorem testBit_xor_pow_ne (mask j x : Nat) (h : j ≠ x) :
    (mask ^^^ (1 <<< j)).testBit x = mask.testBit x := by
  rw [testBit_xor_pow]
  simp [h]

theorem xor_pow_lt (mask j : Nat) (h : mask.testBit j = true) :
    mask ^^^ (1 <<< j) < mask := by
  refine Nat.lt_of_testBit j ?_ h ?_
  · exact testBit_xor_pow_self mask j h
  · intro i hi
    exact testBit_xor_pow_ne mask j i (Nat.ne_of_lt hi)

theorem testBit_lt_of_lt_two_pow {mask n j : Nat} (hm : mask < 2 ^ n)
    (hb : mask.testBit j = true) : j < n := by
  by_contra hj
  have : mask < 2 ^ j := lt_of_lt_of_le hm (Nat.pow_le_pow_right (by norm_num) (le_of_not_lt hj))
  rw [Nat.testBit_eq_false_of_lt this] at hb
  exact Bool.false_ne_true hb

theorem eq_one_of_testBit_iff {mask : Nat} (h : ∀ x, mask.testBit x = true ↔ x = 0) :
    mask = 1 := by
  refine Nat.eq_of_testBit_eq fun i => ?_
  have h1 : Nat.testBit 1 i = decide (0 = i) := by
    have := Nat.testBit_two_pow (n := 0) (m := i)
    simpa using this
  by_cases hi : i = 0
  · subst hi
    rw [(h 0).mpr rfl, h1]
    simp
  · rw [h1]
    have hzi : (0 : Nat) ≠ i := fun e => hi e.symm
    have hne : mask.testBit i = false :=
      Bool.not_eq_true _ |>.mp (fun hb => hi ((h i).mp hb))
    rw [hne]
    simp [hzi]

/-!  ### Lemmas about the minimum/argmin scan -/

theorem bestStep_fst_le (c : Nat → Cost) (p : Nat → Bool) (acc : Cost × Option Nat)
    (k : Nat) : (bestStep c p acc k).1 ≤ acc.1 := by
  unfold bestStep
  split
  · split
    · exact le_of_lt (by assumption)
    · exact le_rfl
  · exact le_rfl

theorem foldl_bestStep_fst_le (c : Nat → Cost) (p : Nat → Bool) :
    ∀ (L : List Nat) (acc : Cost × Option Nat),
      (L.foldl (bestStep c p) acc).1 ≤ acc.1 := by
  intro L
  induction L with
  | nil => intro acc; exact le_rfl
  | cons x xs ih =>
    intro acc
    calc ((x :: xs).foldl (bestStep c p) acc).1
        = (xs.foldl (bestStep c p) (bestStep c p acc x)).1 := rfl
      _ ≤ (bestStep c p acc x).1 := ih _
      _ ≤ acc.1 := bestStep_fst_le c p acc x

theorem foldl_bestStep_le_cand (c : Nat → Cost) (p : Nat → Bool) :
    ∀ (L : List Nat) (acc : Cost × Option Nat) (k : Nat), k ∈ L → p k = true →
      (L.foldl (bestStep c p) acc).1 ≤ c k := by
  intro L
  induction L with
  | nil => intro acc k hk; exact absurd hk (List.not_mem_nil k)
  | cons x xs ih =>
    intro acc k hk hp
    rcases List.mem_cons.mp hk with rfl | hk'
    · calc ((k :: xs).foldl (bestStep c p) acc).1
          = (xs.foldl (bestStep c p) (bestStep c p acc k)).1 := rfl
        _ ≤ (bestStep c p acc k).1 := foldl_bestStep_fst_le c p xs _
        _ ≤ c k := by
            unfold bestStep
            rw [hp]
            simp only [if_true]
            split
            · exact le_rfl
            · exact le_of_not_lt (by assumption)
    · exact ih _ k hk' hp

theorem bestOver_le_cand (L : List Nat) (c : Nat → Cost) (p : Nat → Bool)
    (k : Nat) (hk : k ∈ L) (hp : p k = true) : (bestOver L c p).1 ≤ c k :=
  foldl_bestStep_le_cand c p L (⊤, none) k hk hp

theorem foldl_bestStep_inv (c : Nat → Cost) (p : Nat → Bool) (Q : Nat → Prop) :
    ∀ (L : List Nat) (acc : Cost × Option Nat), (∀ x ∈ L, Q x) →
      (acc = (⊤, none) ∨ ∃ k, Q k ∧ p k = true ∧ acc = (c k, some k) ∧ c k ≠ ⊤) →
      (L.foldl (bestStep c p) acc = (⊤, none) ∨
        ∃ k, Q k ∧ p k = true ∧ L.foldl (bestStep c p) acc = (c k, some k) ∧ c k ≠ ⊤) := by
  intro L
  induction L with
  | nil => intro acc _ hacc; exact hacc
  | cons x xs ih =>
    intro acc hQ hacc
    refine ih (bestStep c p acc x) (fun y hy => hQ y (List.mem_cons_of_mem x hy)) ?_
    unfold bestStep
    split
    · rename_i hpx
      split
      · rename_i hlt
        refine Or.inr ⟨x, hQ x (List.mem_cons_self x xs), hpx, rfl, ?_⟩
        exact ne_top_of_lt (lt_of_lt_of_le hlt le_top)
      · exact hacc
    · exact hacc

theorem bestOver_cases (L : List Nat) (c : Nat → Cost) (p : Nat → Bool) :
    bestOver L c p = (⊤, none) ∨
      ∃ k, k ∈ L ∧ p k = true ∧ bestOver L c p = (c k, some k) ∧ c k ≠ ⊤ := by
  have := foldl_bestStep_inv c p (fun k => k ∈ L) L (⊤, none) (fun x hx => hx) (Or.inl rfl)
  exact this

/-!  ### The canonical Held-Karp table -/

theorem dpF_stable {d : Nat → Nat → ℚ} {n : Nat} :
    ∀ (mask f g j : Nat), mask < f → mask < g → dpF d n f mask j = dpF d n g mask j := by
  intro mask
  induction mask using Nat.strong_induction_on with
  | _ mask ih =>
    intro f g j hf hg
    obtain ⟨f', rfl⟩ : ∃ f', f = f' + 1 :=
      ⟨f - 1, (Nat.succ_pred_eq_of_pos (Nat.lt_of_le_of_lt (Nat.zero_le mask) hf)).symm⟩
    obtain ⟨g', rfl⟩ : ∃ g', g = g' + 1 :=
      ⟨g - 1, (Nat.succ_pred_eq_of_pos (Nat.lt_of_le_of_lt (Nat.zero_le mask) hg)).symm⟩
    show dpF d n (f' + 1) mask j = dpF d n (g' + 1) mask j
    simp only [dpF]
    split
    · rfl
    · split
      · rename_i hcond
        have hbit : mask.testBit j = true := hcond.2.2.2
        have hlt : mask ^^^ (1 <<< j) < mask := xor_pow_lt mask j hbit
        have hfun : (fun k => (dpF d n f' (mask ^^^ (1 <<< j)) k).1 + ((d k j : ℚ) : Cost))
            = (fun k => (dpF d n g' (mask ^^^ (1 <<< j)) k).1 + ((d k j : ℚ) : Cost)) := by
          funext k
          rw [ih (mask ^^^ (1 <<< j)) hlt f' g' k
            (lt_of_lt_of_le hlt (Nat.lt_succ_iff.mp hf))
            (lt_of_lt_of_le hlt (Nat.lt_succ_iff.mp hg))]
        rw [hfun]
      · rfl

theorem hkDP_base (d : Nat → Nat → ℚ) (n : Nat) :
    hkDP d n 1 0 = (((0 : ℚ) : Cost), none) := by
  simp [hkDP, dpF]

theorem hkDP_not_key (d : Nat → Nat → ℚ) (n mask j : Nat)
    (h1 : ¬(mask = 1 ∧ j = 0))
    (h2 : ¬(mask % 2 = 1 ∧ 1 ≤ j ∧ j < n ∧ mask.testBit j = true)) :
    hkDP d n mask j = (⊤, none) := by
  unfold hkDP dpF
  rw [if_neg h1, if_neg h2]

theorem hkDP_rec (d : Nat → Nat → ℚ) (n mask j : Nat)
    (hodd : mask % 2 = 1) (hj1 : 1 ≤ j) (hjn : j < n) (hbit : mask.testBit j = true) :
    hkDP d n mask j =
      bestOver (List.range n)
        (fun k => dpv d n (mask ^^^ (1 <<< j)) k + ((d k j : ℚ) : Cost))
        (fun k => (mask ^^^ (1 <<< j)).testBit k) := by
  have hne : ¬(mask = 1 ∧ j = 0) := by
    rintro ⟨_, rfl⟩; exact absurd hj1 (by norm_num)
  unfold hkDP
  show dpF d n (mask + 1) mask j = _
  simp only [dpF]
  rw [if_neg hne, if_pos ⟨hodd, hj1, hjn, hbit⟩]
  have hlt : mask ^^^ (1 <<< j) < mask := xor_pow_lt mask j hbit
  have hfun : (fun k => (dpF d n mask (mask ^^^ (1 <<< j)) k).1 + ((d k j : ℚ) : Cost))
      = (fun k => dpv d n (mask ^^^ (1 <<< j)) k + ((d k j : ℚ) : Cost)) := by
    funext k
    unfold dpv hkDP
    rw [dpF_stable (mask ^^^ (1 <<< j)) mask ((mask ^^^ (1 <<< j)) + 1) k hlt (by omega)]
  rw [hfun]

theorem dpv_base (d : Nat → Nat → ℚ) (n : Nat) : dpv d n 1 0 = ((0 : ℚ) : Cost) := by
  unfold dpv; rw [hkDP_base]

theorem dpv_top_of_not_key (d : Nat → Nat → ℚ) (n mask j : Nat)
    (h1 : ¬(mask = 1 ∧ j = 0))
    (h2 : ¬(mask % 2 = 1 ∧ 1 ≤ j ∧ j < n ∧ mask.testBit j = true)) :
    dpv d n mask j = ⊤ := by
  unfold dpv; rw [hkDP_not_key d n mask j h1 h2]

theorem pathCost_concat (d : Nat → Nat → ℚ) :
    ∀ (q : List Nat) (k x : Nat), q.getLast? = some k →
      pathCost d (q ++ [x]) = pathCost d q + d k x := by
  intro q
  induction q with
  | nil => intro k x hk; cases hk
  | cons a t ih =>
    intro k x hk
    cases t with
    | nil =>
      cases hk
      show pathCost d [a, x] = pathCost d [a] + d a x
      show d a x + pathCost d [x] = pathCost d [a] + d a x
      show d a x + 0 = 0 + d a x
      ring
    | cons b t' =>
      rw [List.getLast?_cons_cons] at hk
      show d a b + pathCost d ((b :: t') ++ [x]) = (d a b + pathCost d (b :: t')) + d k x
      rw [ih k x hk, add_assoc]

/-- Lower bound: every valid path costs at least the dp value of its state. -/
theorem dpv_le_pathCost (d : Nat → Nat → ℚ) (n : Nat) :
    ∀ (mask : Nat), mask < 2 ^ n → ∀ (j : Nat) (p : List Nat), ValidPath n mask j p →
      dpv d n mask j ≤ ((pathCost d p : ℚ) : Cost) := by
  intro mask
  induction mask using Nat.strong_induction_on with
  | _ mask ih =>
    intro hmask j p hp
    obtain ⟨hne, hhead, hlast, hnd, hmem⟩ := hp
    obtain ⟨q, rfl⟩ := List.getLast?_eq_some_iff.mp hlast
    have h0mem : (0 : Nat) ∈ q ++ [j] :=
      List.mem_of_mem_head? (by rw [hhead]; rfl)
    have hbit0 : mask.testBit 0 = true := (hmem 0).mp h0mem
    have hodd : mask % 2 = 1 := by
      have := Nat.testBit_zero mask
      rw [hbit0] at this
      exact of_decide_eq_true this.symm
    cases q with
    | nil =>
      -- single-vertex path [j]; head 0 forces j = 0, membership forces mask = 1
      simp only [List.nil_append] at hhead hmem ⊢
      have hj0 : j = 0 := by
        have : ([j].head? : Option Nat) = some j := rfl
        rw [this] at hhead
        exact (Option.some.injEq _ _).mp hhead
      subst hj0
      have hm1 : mask = 1 := by
        refine eq_one_of_testBit_iff fun x => ?_
        constructor
        · intro hb
          have := (hmem x).mpr hb
          simpa using this
        · intro hx; subst hx; exact hbit0
      subst hm1
      rw [dpv_base]
      show ((0 : ℚ) : Cost) ≤ ((pathCost d [0] : ℚ) : Cost)
      norm_num [pathCost]
    | cons a t =>
      -- path (a :: t) ++ [j] with a = 0
      have hndapp := List.nodup_append.mp hnd
      have ha : a = 0 := by
        have : ((a :: t) ++ [j]).head? = some a := rfl
        rw [this] at hhead
        exact (Option.some.injEq _ _).mp hhead
      subst ha
      have hqne : (0 :: t : List Nat) ≠ [] := by simp
      have hjq : j ∉ (0 :: t : List Nat) :=
        fun hjmem => hndapp.2.2 hjmem (List.mem_cons_self j [])
      have hj0 : j ≠ 0 := fun e => hjq (e ▸ List.mem_cons_self 0 t)
      have hbitj : mask.testBit j = true := (hmem j).mp (by simp)
      have hjn : j < n := testBit_lt_of_lt_two_pow hmask hbitj
      -- the predecessor state
      set pm := mask ^^^ (1 <<< j) with hpm
      have hpmlt : pm < mask := xor_pow_lt mask j hbitj
      have hpmlt2 : pm < 2 ^ n := lt_trans hpmlt hmask
      obtain ⟨k, hk⟩ : ∃ k, (0 :: t : List Nat).getLast? = some k := by
        cases hh : (0 :: t : List Nat).getLast? with
        | none => simp [List.getLast?_eq_none_iff] at hh
        | some y => exact ⟨y, rfl⟩
      have hkq : k ∈ (0 :: t : List Nat) := List.mem_of_getLast?_eq_some hk
      have hvq : ValidPath n pm k (0 :: t) := by
        refine ⟨hqne, rfl, hk, hndapp.1, ?_⟩
        intro x
        constructor
        · intro hx
          have hxj : x ≠ j := fun e => hjq (e ▸ hx)
          rw [testBit_xor_pow_ne mask j x (fun e => hxj e.symm)]
          exact (hmem x).mp (List.mem_append_left _ hx)
        · intro hb
          have hxj : x ≠ j := by
            intro e
            subst e
            rw [testBit_xor_pow_self mask x hbitj] at hb
            exact Bool.false_ne_true hb
          rw [testBit_xor_pow_ne mask j x (fun e => hxj e.symm)] at hb
          have := (hmem x).mpr hb
          rcases List.mem_append.mp this with h | h
          · exact h
          · simp at h; exact absurd h hxj
      have hkbit : pm.testBit k = true := (hvq.2.2.2.2 k).mp hkq
      have hkn : k < n := testBit_lt_of_lt_two_pow hpmlt2 hkbit
      have hih := ih pm hpmlt hpmlt2 k (0 :: t) hvq
      -- unfold one step of the recurrence and bound by the candidate at k
      have hrec := hkDP_rec d n mask j hodd (Nat.one_le_iff_ne_zero.mpr hj0) hjn hbitj
      have hle : dpv d n mask j ≤ dpv d n pm k + ((d k j : ℚ) : Cost) := by
        have := bestOver_le_cand (List.range n)
          (fun k' => dpv d n pm k' + ((d k' j : ℚ) : Cost))
          (fun k' => pm.testBit k') k (List.mem_range.mpr hkn) hkbit
        unfold dpv
        rw [hrec]
        exact this
      refine le_trans hle ?_
      rw [pathCost_concat d (0 :: t) k j hk]
      push_cast
      exact add_le_add_right hih _

/-- Reconstruction: when the dp value is finite the source's backtracking
loop terminates, and it produces a valid path of exactly that cost. -/
theorem loopListF_spec (d : Nat → Nat → ℚ) (n : Nat) :
    ∀ (fuel mask j : Nat), mask ≤ fuel → mask < 2 ^ n → dpv d n mask j ≠ ⊤ →
      ∃ r, loopListF (fun m j' => hkParent d n m j') fuel mask j = some r ∧
        ValidPath n mask j ((r ++ [0]).reverse) ∧
        ((pathCost d ((r ++ [0]).reverse) : ℚ) : Cost) = dpv d n mask j := by
  intro fuel
  induction fuel with
  | zero =>
    intro mask j hf hm htop
    interval_cases mask
    exfalso
    apply htop
    refine dpv_top_of_not_key d n 0 j ?_ ?_
    · rintro ⟨h, _⟩; cases h
    · rintro ⟨h, _⟩; cases h
  | succ fuel ihf =>
    intro mask j hf hm htop
    by_cases hbase : mask = 1 ∧ j = 0
    · obtain ⟨rfl, rfl⟩ := hbase
      refine ⟨[], ?_, ?_, ?_⟩
      · simp [loopListF]
      · refine ⟨by simp, by simp, by simp, by simp, ?_⟩
        intro x
        have h1 : Nat.testBit 1 x = decide (0 = x) := by
          have := Nat.testBit_two_pow (n := 0) (m := x)
          simpa using this
        simp [h1, eq_comm]
      · simp [pathCost, dpv_base]
    · -- the key must be a recurrence key
      have hkey : mask % 2 = 1 ∧ 1 ≤ j ∧ j < n ∧ mask.testBit j = true := by
        by_contra hk
        exact htop (dpv_top_of_not_key d n mask j hbase hk)
      obtain ⟨hodd, hj1, hjn, hbitj⟩ := hkey
      have hj0 : j ≠ 0 := by omega
      set pm := mask ^^^ (1 <<< j) with hpm
      have hpmlt : pm < mask := xor_pow_lt mask j hbitj
      have hpmlt2 : pm < 2 ^ n := lt_trans hpmlt hm
      have hrec := hkDP_rec d n mask j hodd hj1 hjn hbitj
      -- the scan found a finite minimum, so parent is some k
      rcases bestOver_cases (List.range n)
        (fun k' => dpv d n pm k' + ((d k' j : ℚ) : Cost))
        (fun k' => pm.testBit k') with hc | hc
      · exfalso
        apply htop
        unfold dpv
        rw [hrec, hc]
      · obtain ⟨k, hkrange, hkbit, heq, hcne⟩ := hc
        have hdpval : dpv d n mask j = dpv d n pm k + ((d k j : ℚ) : Cost) := by
          unfold dpv
          rw [hrec, heq]
          rfl
        have hpar : hkParent d n mask j = some k := by
          unfold hkParent
          rw [hrec, heq]
        have hpmtop : dpv d n pm k ≠ ⊤ := by
          intro h
          apply hcne
          rw [h]
          exact top_add _
        obtain ⟨r', hr', hvp', hcost'⟩ := ihf pm k (by omega) hpmlt2 hpmtop
        set P' := (r' ++ [0]).reverse with hP'
        have hP'ne : P' ≠ [] := by simp [hP']
        refine ⟨j :: r', ?_, ?_, ?_⟩
        · show loopListF (fun m j' => hkParent d n m j') (fuel + 1) mask j = some (j :: r')
          simp only [loopListF]
          rw [if_neg hj0, hbitj, if_pos rfl, hpar, ← hpm]
          show (loopListF (fun m j' => hkParent d n m j') fuel pm k).map
            (fun r => j :: r) = some (j :: r')
          rw [hr']
          rfl
        · -- validity of the extended path P' ++ [j]
          have hrw : (((j :: r') ++ [0]).reverse : List Nat) = P' ++ [j] := by
            simp [hP']
          rw [hrw]
          obtain ⟨_, hhead', hlast', hnd', hmem'⟩ := hvp'
          have hjP' : j ∉ P' := by
            intro hj
            have := (hmem' j).mp hj
            rw [testBit_xor_pow_self mask j hbitj] at this
            exact Bool.false_ne_true this
          refine ⟨by simp, ?_, List.getLast?_concat _, ?_, ?_⟩
          · rw [List.head?_append]
            cases hh : P'.head? with
            | none => exact absurd (by simpa using hh) hP'ne
            | some y =>
              rw [hh] at hhead'
              rw [hhead']
              rfl
          · rw [List.nodup_append]
            refine ⟨hnd', List.nodup_singleton j, fun x hx hxj => ?_⟩
            have hxeq : x = j := List.mem_singleton.mp hxj
            exact hjP' (hxeq ▸ hx)
          · intro x
            rw [List.mem_append]
            constructor
            · rintro (hx | hx)
              · have := (hmem' x).mp hx
                have hxj : x ≠ j := fun e => hjP' (e ▸ hx)
                rw [testBit_xor_pow_ne mask j x (fun e => hxj e.symm)] at this
                exact this
              · simp at hx
                subst hx
                exact hbitj
            · intro hb
              by_cases hxj : x = j
              · subst hxj; simp
              · left
                rw [(hmem' x)]
                rw [testBit_xor_pow_ne mask j x (fun e => hxj e.symm)]
                exact hb
        · -- cost of the extended path
          have hrw : (((j :: r') ++ [0]).reverse : List Nat) = P' ++ [j] := by
            simp [hP']
          rw [hrw]
          have hlastP' : P'.getLast? = some k := hvp'.2.2.1
          rw [pathCost_concat d P' k j hlastP']
          push_cast
          rw [hcost', hdpval]

/-!  ### Lemmas about the `min` over `(distance, endpoint)` tuples -/

theorem lexStep_fst_le_left (acc q : Cost × Nat) : (lexStep acc q).1 ≤ acc.1 := by
  unfold lexStep
  split
  · rename_i h
    rcases h with h | h
    · exact le_of_lt h
    · exact le_of_eq h.1
  · exact le_rfl

theorem lexStep_fst_le_right (acc q : Cost × Nat) : (lexStep acc q).1 ≤ q.1 := by
  unfold lexStep
  split
  · exact le_rfl
  · rename_i h
    push_neg at h
    exact h.1

theorem lexStep_mem (acc q : Cost × Nat) : lexStep acc q = acc ∨ lexStep acc q = q := by
  unfold lexStep
  split
  · exact Or.inr rfl
  · exact Or.inl rfl

theorem foldl_lexStep_spec :
    ∀ (xs : List (Cost × Nat)) (acc : Cost × Nat),
      (xs.foldl lexStep acc = acc ∨ xs.foldl lexStep acc ∈ xs) ∧
      (xs.foldl lexStep acc).1 ≤ acc.1 ∧ (∀ z ∈ xs, (xs.foldl lexStep acc).1 ≤ z.1) := by
  intro xs
  induction xs with
  | nil =>
    intro acc
    exact ⟨Or.inl rfl, le_rfl, fun z hz => absurd hz (List.not_mem_nil z)⟩
  | cons q qs ih =>
    intro acc
    obtain ⟨hmem, hle, hall⟩ := ih (lexStep acc q)
    have hstep : (qs.foldl lexStep (lexStep acc q)).1 ≤ acc.1 :=
      le_trans hle (lexStep_fst_le_left acc q)
    have hstepq : (qs.foldl lexStep (lexStep acc q)).1 ≤ q.1 :=
      le_trans hle (lexStep_fst_le_right acc q)
    refine ⟨?_, hstep, ?_⟩
    · show List.foldl lexStep (lexStep acc q) qs = acc ∨
        List.foldl lexStep (lexStep acc q) qs ∈ q :: qs
      rcases hmem with h | h
      · rcases lexStep_mem acc q with h2 | h2
        · exact Or.inl (h.trans h2)
        · refine Or.inr ?_
          rw [h, h2]
          exact List.mem_cons_self q qs
      · exact Or.inr (List.mem_cons_of_mem q h)
    · intro z hz
      rcases List.mem_cons.mp hz with rfl | hz'
      · exact hstepq
      · exact hall z hz'

theorem lexMin_spec (x : Cost × Nat) (xs : List (Cost × Nat)) :
    ∃ y, lexMin (x :: xs) = some y ∧ y ∈ x :: xs ∧ ∀ z ∈ x :: xs, y.1 ≤ z.1 := by
  obtain ⟨hmem, hle, hall⟩ := foldl_lexStep_spec xs x
  refine ⟨xs.foldl lexStep x, rfl, ?_, ?_⟩
  · rcases hmem with h | h
    · rw [h]; exact List.mem_cons_self x xs
    · exact List.mem_cons_of_mem x h
  · intro z hz
    rcases List.mem_cons.mp hz with rfl | hz'
    · exact hle
    · exact hall z hz'

/-!  ### Remaining helpers for the main Held-Karp theorem -/

theorem mem_drop_one_range (n x : Nat) :
    x ∈ (List.range n).drop 1 ↔ 1 ≤ x ∧ x < n := by
  cases n with
  | zero => simp
  | succ m =>
    rw [List.range_succ_eq_map]
    show x ∈ (List.range m).map Nat.succ ↔ _
    simp only [List.mem_map, List.mem_range]
    constructor
    · rintro ⟨y, hy, rfl⟩; omega
    · rintro ⟨h1, h2⟩; exact ⟨x - 1, by omega, by omega⟩

theorem exists_validPath_full (n j : Nat) (hn : 1 ≤ n) (hj1 : 1 ≤ j) (hjn : j < n) :
    ∃ p, ValidPath n (2 ^ n - 1) j p := by
  classical
  set f : List Nat := (List.range n).filter (fun x => decide (x ≠ 0) && decide (x ≠ j))
    with hf
  have hfmem : ∀ x, x ∈ f ↔ x < n ∧ x ≠ 0 ∧ x ≠ j := by
    intro x
    rw [hf, List.mem_filter]
    simp [List.mem_range]
  refine ⟨0 :: (f ++ [j]), by simp, rfl, ?_, ?_, ?_⟩
  · show ((0 :: f) ++ [j]).getLast? = some j
    exact List.getLast?_concat _
  · rw [List.nodup_cons]
    constructor
    · intro h
      rcases List.mem_append.mp h with h | h
      · exact ((hfmem 0).mp h).2.1 rfl
      · have : (0 : Nat) = j := List.mem_singleton.mp h
        omega
    · rw [List.nodup_append]
      refine ⟨List.Nodup.filter _ (List.nodup_range n), List.nodup_singleton j, ?_⟩
      intro x hx hxj
      have := ((hfmem x).mp hx).2.2
      exact this (List.mem_singleton.mp hxj)
  · intro x
    rw [Nat.testBit_two_pow_sub_one]
    simp only [decide_eq_true_eq]
    constructor
    · intro hx
      rcases List.mem_cons.mp hx with rfl | hx
      · omega
      · rcases List.mem_append.mp hx with h | h
        · exact ((hfmem x).mp h).1
        · have : x = j := List.mem_singleton.mp h
          omega
    · intro hx
      by_cases h0 : x = 0
      · subst h0; exact List.mem_cons_self 0 _
      · by_cases hj : x = j
        · subst hj
          exact List.mem_cons_of_mem _ (List.mem_append_right _ (List.mem_singleton.mpr rfl))
        · exact List.mem_cons_of_mem _
            (List.mem_append_left _ ((hfmem x).mpr ⟨hx, h0, hj⟩))

theorem middle_complete (n : Nat) (hn : 2 ≤ n) (m : List Nat) (hnd : m.Nodup)
    (hlen : m.length = n - 1) (hmem : ∀ x ∈ m, 1 ≤ x ∧ x < n) :
    ∀ x, 1 ≤ x → x < n → x ∈ m := by
  classical
  have hsub : m.toFinset ⊆ (Finset.range n).erase 0 := by
    intro x hx
    have := hmem x (List.mem_toFinset.mp hx)
    exact Finset.mem_erase.mpr ⟨by omega, Finset.mem_range.mpr this.2⟩
  have hcard : ((Finset.range n).erase 0).card ≤ m.toFinset.card := by
    rw [List.toFinset_card_of_nodup hnd, hlen,
      Finset.card_erase_of_mem (Finset.mem_range.mpr (by omega)), Finset.card_range]
  have heqf := Finset.eq_of_subset_of_card_le hsub hcard
  intro x h1 h2
  have hx : x ∈ m.toFinset := by
    rw [heqf]
    exact Finset.mem_erase.mpr ⟨by omega, Finset.mem_range.mpr h2⟩
  exact List.mem_toFinset.mp hx

theorem validPath_full_length (n j : Nat) (p : List Nat)
    (h : ValidPath n (2 ^ n - 1) j p) : p.length = n := by
  classical
  obtain ⟨_, _, _, hnd, hmem⟩ := h
  have htf : p.toFinset = Finset.range n := by
    ext x
    rw [List.mem_toFinset, Finset.mem_range, hmem x, Nat.testBit_two_pow_sub_one]
    simp
  have := List.toFinset_card_of_nodup hnd
  rw [htf, Finset.card_range] at this
  omega

/-- C1: for every square, non-negative n×n distance matrix with n ≥ 2,
`held_karp_tsp` returns a tour of length n+1 that starts and ends at index 0
and visits every other index exactly once, whose returned total distance
equals the sum of `D[tour[i]][tour[i+1]]` over consecutive tour positions,
and that distance is ≤ the total distance of every other valid tour over
the same matrix (optimality). -/
theorem held_karp_tsp_correct_and_optimal (D : List (List ℚ))
    (hn : 2 ≤ D.length)
    (hsq : ∀ row ∈ D, row.length = D.length)
    (hnonneg : ∀ row ∈ D, ∀ x ∈ row, 0 ≤ x) :
    ∃ tour dist, held_karp_tsp D = some (tour, dist) ∧
      tour.length = D.length + 1 ∧
      tour.head? = some 0 ∧
      tour.getLast? = some 0 ∧
      (∀ j, 1 ≤ j → j < D.length → tour.count j = 1) ∧
      dist = ((pathCost (entryD D) tour : ℚ) : Cost) ∧
      (∀ t, IsValidTour D.length t →
        dist ≤ ((pathCost (entryD D) t : ℚ) : Cost)) := by
  classical
  set n := D.length with hnn
  set d : Nat → Nat → ℚ := fun i j => entryD D i j with hd
  set full := 2 ^ n - 1 with hfulldef
  have h2n : 1 ≤ 2 ^ n := Nat.one_le_two_pow
  have hfull : full < 2 ^ n := by omega
  -- dp values at the full mask are finite
  have hfin : ∀ j, 1 ≤ j → j < n → dpv d n full j ≠ ⊤ := by
    intro j h1 h2
    obtain ⟨p, hp⟩ := exists_validPath_full n j (by omega) h1 h2
    have hle := dpv_le_pathCost d n full hfull j p hp
    intro htop
    rw [htop] at hle
    exact absurd (top_le_iff.mp hle) (WithTop.coe_ne_top)
  -- the candidate list fed to Python's min
  set cands := ((List.range n).drop 1).map
    (fun j => (dpv d n full j + ((d j 0 : ℚ) : Cost), j)) with hcands
  obtain ⟨x, xs, hxxs⟩ : ∃ x xs, cands = x :: xs := by
    have hlen : cands.length = n - 1 := by
      rw [hcands, List.length_map, List.length_drop, List.length_range]
    cases hc : cands with
    | nil => rw [hc] at hlen; simp at hlen; omega
    | cons a l => exact ⟨a, l, rfl⟩
  obtain ⟨y, hy_eq, hy_mem, hy_min⟩ := lexMin_spec x xs
  obtain ⟨bd, be⟩ := y
  rw [← hxxs] at hy_eq hy_mem hy_min
  obtain ⟨j0, hj0_mem, hj0_eq⟩ := List.mem_map.mp (hcands ▸ hy_mem)
  have hj0_range := (mem_drop_one_range n j0).mp hj0_mem
  have hbe : j0 = be := by
    have := congrArg Prod.snd hj0_eq
    simpa using this
  subst hbe
  have hbd : bd = dpv d n full j0 + ((d j0 0 : ℚ) : Cost) := by
    have := congrArg Prod.fst hj0_eq
    simpa using this.symm
  have hdpne : dpv d n full j0 ≠ ⊤ := hfin j0 hj0_range.1 hj0_range.2
  obtain ⟨r, hr, hvp, hcost⟩ :=
    loopListF_spec d n full full j0 le_rfl hfull hdpne
  set P := ((r ++ [0]).reverse : List Nat) with hP
  have hPlen : P.length = n := validPath_full_length n j0 P hvp
  obtain ⟨hPne, hPhead, hPlast, hPnd, hPmem⟩ := hvp
  -- the returned tour equals P ++ [0]
  set tour := (((0 :: r) ++ [0]).reverse : List Nat) with htourdef
  have htour : tour = P ++ [0] := by
    rw [htourdef, hP]
    simp
  -- the function value
  have hval : held_karp_tsp D = some (tour, bd) := by
    have hy_eq2 : lexMin (((List.range D.length).drop 1).map
        (fun j => (dpv (fun i j2 => entryD D i j2) D.length (2 ^ D.length - 1) j
          + ((entryD D j 0 : ℚ) : Cost), j))) = some (bd, j0) := hy_eq
    have hr2 : loopListF
        (fun m j => hkParent (fun i j2 => entryD D i j2) D.length m j)
        (2 ^ D.length - 1) (2 ^ D.length - 1) j0 = some r := hr
    simp only [held_karp_tsp, hy_eq2, Option.some_bind, hr2, Option.map_some']
  refine ⟨tour, bd, hval, ?_, ?_, ?_, ?_, ?_, ?_⟩
  · -- length
    rw [htour, List.length_append, hPlen]
    rfl
  · -- head
    rw [htour, List.head?_append, hPhead]
    rfl
  · -- last
    rw [htour]
    exact List.getLast?_concat _
  · -- counts
    intro j hj1 hjn
    rw [htour, List.count_append]
    have hjP : j ∈ P := by
      rw [hPmem j, Nat.testBit_two_pow_sub_one]
      simpa using hjn
    rw [List.count_eq_one_of_mem hPnd hjP]
    have : List.count j [0] = 0 := by
      rw [List.count_singleton']
      simp
      omega
    rw [this]
  · -- returned distance is the cost of the returned tour
    rw [htour, pathCost_concat d P j0 0 hPlast]
    push_cast
    rw [hcost, hbd]
  · -- optimality
    intro t ht
    obtain ⟨m, rfl, hmnd, hmlen, hmmem⟩ := ht
    have hmne : m ≠ [] := by
      intro h
      rw [h] at hmlen
      simp at hmlen
      omega
    obtain ⟨jl, hjl⟩ : ∃ jl, m.getLast? = some jl := by
      cases hh : m.getLast? with
      | none => exact absurd (List.getLast?_eq_none_iff.mp hh) hmne
      | some z => exact ⟨z, rfl⟩
    have hjlm : jl ∈ m := List.mem_of_getLast?_eq_some hjl
    have hjlr := hmmem jl hjlm
    have hvQ : ValidPath n full jl (0 :: m) := by
      refine ⟨by simp, rfl, ?_, ?_, ?_⟩
      · cases m with
        | nil => exact absurd rfl hmne
        | cons b tl => rw [List.getLast?_cons_cons]; exact hjl
      · rw [List.nodup_cons]
        exact ⟨fun h => by have := hmmem 0 h; omega, hmnd⟩
      · intro z
        rw [Nat.testBit_two_pow_sub_one]
        simp only [decide_eq_true_eq]
        constructor
        · intro hz
          rcases List.mem_cons.mp hz with rfl | hz'
          · omega
          · exact (hmmem z hz').2
        · intro hz
          by_cases hz0 : z = 0
          · subst hz0; exact List.mem_cons_self 0 m
          · exact List.mem_cons_of_mem _
              (middle_complete n hn m hmnd hmlen hmmem z (by omega) hz)
    have hlb := dpv_le_pathCost d n full hfull jl (0 :: m) hvQ
    have hmin : bd ≤ dpv d n full jl + ((d jl 0 : ℚ) : Cost) := by
      have hc_mem : (dpv d n full jl + ((d jl 0 : ℚ) : Cost), jl) ∈ cands := by
        rw [hcands]
        exact List.mem_map.mpr ⟨jl, (mem_drop_one_range n jl).mpr hjlr, rfl⟩
      exact hy_min _ hc_mem
    have hsplit : (0 :: (m ++ [0]) : List Nat) = (0 :: m) ++ [0] := rfl
    rw [hsplit, pathCost_concat d (0 :: m) jl 0 (by
      cases m with
      | nil => exact absurd rfl hmne
      | cons b tl => rw [List.getLast?_cons_cons]; exact hjl)]
    push_cast
    calc bd ≤ dpv d n full jl + ((d jl 0 : ℚ) : Cost) := hmin
      _ ≤ ((pathCost d (0 :: m) : ℚ) : Cost) + ((d jl 0 : ℚ) : Cost) :=
          add_le_add_right hlb _
      _ = ((pathCost d (0 :: m) : ℚ) : Cost) + ((d jl 0 : ℚ) : Cost) := rfl

/-- Witness for `held_karp_tsp_correct_and_optimal` at a concrete matrix. -/
theorem held_karp_tsp_correct_witness :
    (2 ≤ ([[(0 : ℚ), 1], [1, 0]] : List (List ℚ)).length ∧
      (∀ row ∈ ([[(0 : ℚ), 1], [1, 0]] : List (List ℚ)), row.length = 2) ∧
      (∀ row ∈ ([[(0 : ℚ), 1], [1, 0]] : List (List ℚ)), ∀ x ∈ row, 0 ≤ x)) ∧
    (∃ tour dist, held_karp_tsp [[(0 : ℚ), 1], [1, 0]] = some (tour, dist) ∧
      tour.length = ([[(0 : ℚ), 1], [1, 0]] : List (List ℚ)).length + 1 ∧
      tour.head? = some 0 ∧
      tour.getLast? = some 0 ∧
      (∀ j, 1 ≤ j → j < ([[(0 : ℚ), 1], [1, 0]] : List (List ℚ)).length →
        tour.count j = 1) ∧
      dist = ((pathCost (entryD [[(0 : ℚ), 1], [1, 0]]) tour : ℚ) : Cost) ∧
      (∀ t, IsValidTour ([[(0 : ℚ), 1], [1, 0]] : List (List ℚ)).length t →
        dist ≤ ((pathCost (entryD [[(0 : ℚ), 1], [1, 0]]) t : ℚ) : Cost))) :=
  ⟨⟨by decide, by decide, by decide⟩,
    held_karp_tsp_correct_and_optimal [[(0 : ℚ), 1], [1, 0]]
      (by decide) (by decide) (by decide)⟩

/-!  ## Correctness of the greedy fallback (claim C7) -/

theorem argminKey_mem (f : Nat → ℚ) :
    ∀ (l : List Nat) (x : Nat), argminKey f l x ∈ x :: l := by
  intro l
  induction l with
  | nil => intro x; exact List.mem_cons_self x []
  | cons y ys ih =>
    intro x
    show argminKey f ys (if f y < f x then y else x) ∈ x :: y :: ys
    have h := ih (if f y < f x then y else x)
    rcases List.mem_cons.mp h with h' | h'
    · rw [h']
      split
      · exact List.mem_cons_of_mem x (List.mem_cons_self y ys)
      · exact List.mem_cons_self x (y :: ys)
    · exact List.mem_cons_of_mem x (List.mem_cons_of_mem y h')

theorem nnLoop_spec (d : Nat → Nat → ℚ) :
    ∀ (fuel : Nat) (unvisited : List Nat) (current : Nat) (tour : List Nat) (total : ℚ),
      unvisited.length ≤ fuel →
      ∃ m, (nnLoop d fuel unvisited current tour total).1 = (tour ++ m) ++ [0] ∧
        m.Perm unvisited := by
  intro fuel
  induction fuel with
  | zero =>
    intro unvisited current tour total hlen
    have : unvisited = [] := List.length_eq_zero.mp (Nat.le_zero.mp hlen)
    subst this
    exact ⟨[], by simp [nnLoop], List.Perm.refl []⟩
  | succ fuel ih =>
    intro unvisited current tour total hlen
    cases unvisited with
    | nil => exact ⟨[], by simp [nnLoop], List.Perm.refl []⟩
    | cons u us =>
      set nearest := argminKey (d current) us u with hnear
      have hmem : nearest ∈ u :: us := argminKey_mem (d current) us u
      have herase : ((u :: us).erase nearest).length = us.length := by
        rw [List.length_erase_of_mem hmem]
        rfl
      have hle2 : ((u :: us).erase nearest).length ≤ fuel := by
        rw [herase]
        simpa using hlen
      obtain ⟨m', hm'_eq, hm'_perm⟩ :=
        ih ((u :: us).erase nearest) nearest (tour ++ [nearest])
          (total + d current nearest) hle2
      refine ⟨nearest :: m', ?_, ?_⟩
      · show (nnLoop d fuel ((u :: us).erase nearest) nearest
          (tour ++ [nearest]) (total + d current nearest)).1 = _
        rw [hm'_eq]
        simp
      · exact (hm'_perm.cons nearest).trans (List.perm_cons_erase hmem).symm

/-- C7: for every n×n distance matrix with n ≥ 1, including degenerate
all-zero or all-equal matrices, `_nearest_neighbor_fallback` returns
(without raising) a tour of length n+1 that starts and ends at index 0 and
visits every other index exactly once. -/
theorem nearest_neighbor_fallback_valid (D : List (List ℚ)) (hn : 1 ≤ D.length) :
    (_nearest_neighbor_fallback D).1.length = D.length + 1 ∧
    (_nearest_neighbor_fallback D).1.head? = some 0 ∧
    (_nearest_neighbor_fallback D).1.getLast? = some 0 ∧
    (∀ j, 1 ≤ j → j < D.length → (_nearest_neighbor_fallback D).1.count j = 1) := by
  by_cases h1 : D.length = 1
  · have hres : _nearest_neighbor_fallback D = ([0, 0], 0) := by
      unfold _nearest_neighbor_fallback
      rw [if_neg (by omega), if_pos h1]
    rw [hres, h1]
    refine ⟨rfl, rfl, rfl, ?_⟩
    intro j hj1 hjn
    omega
  · have h2 : 2 ≤ D.length := by omega
    have hres : _nearest_neighbor_fallback D =
        nnLoop (entryD D) D.length ((List.range D.length).drop 1) 0 [0] 0 := by
      unfold _nearest_neighbor_fallback
      rw [if_neg (by omega), if_neg h1]
    have hdlen : ((List.range D.length).drop 1).length ≤ D.length := by
      rw [List.length_drop, List.length_range]
      omega
    obtain ⟨m, hm_eq, hm_perm⟩ :=
      nnLoop_spec (entryD D) D.length ((List.range D.length).drop 1) 0 [0] 0 hdlen
    have hmlen : m.length = D.length - 1 := by
      rw [hm_perm.length_eq, List.length_drop, List.length_range]
    rw [hres, hm_eq]
    refine ⟨?_, ?_, ?_, ?_⟩
    · simp [hmlen]
      omega
    · rfl
    · exact List.getLast?_concat _
    · intro j hj1 hjn
      have hcm : m.count j = 1 := by
        rw [hm_perm.count_eq]
        refine List.count_eq_one_of_mem ?_ ?_
        · exact List.Nodup.sublist (List.drop_sublist 1 _) (List.nodup_range _)
        · exact (mem_drop_one_range _ _).mpr ⟨hj1, hjn⟩
      have hsplit : (([0] ++ m) ++ [0] : List Nat) = 0 :: (m ++ [0]) := by simp
      have hj0 : j ≠ 0 := by omega
      have hj0' : ¬((0 : Nat) = j) := by omega
      rw [hsplit, List.count_cons, List.count_append, hcm, List.count_singleton']
      simp [hj0, hj0']

/-- Witness for `nearest_neighbor_fallback_valid` at a concrete matrix. -/
theorem nearest_neighbor_fallback_valid_witness :
    1 ≤ ([[(0 : ℚ)]] : List (List ℚ)).length ∧
    ((_nearest_neighbor_fallback [[(0 : ℚ)]]).1.length = 2 ∧
      (_nearest_neighbor_fallback [[(0 : ℚ)]]).1.head? = some 0 ∧
      (_nearest_neighbor_fallback [[(0 : ℚ)]]).1.getLast? = some 0 ∧
      (∀ j, 1 ≤ j → j < ([[(0 : ℚ)]] : List (List ℚ)).length →
        (_nearest_neighbor_fallback [[(0 : ℚ)]]).1.count j = 1)) :=
  ⟨by decide, nearest_neighbor_fallback_valid [[(0 : ℚ)]] (by decide)⟩

/-!  ## Christofides error handling (claim C2)

The source raises the empty/too-few/non-square `ValueError`s before the
`try` block (they propagate to the caller), but the negative-distance
`ValueError` is raised inside the `try` block and is therefore caught by
the catch-all `except Exception` handler, which falls back to the greedy
solver instead of propagating the validation error. -/

/-- The claim "a negative distance raises a structured validation error
that propagates to the caller" fails: on `[[0, -1], [-1, 0]]` the function
returns the greedy-fallback result `([0, 1, 0], -2)`, not an error, for
any behaviour of the graph-library pipeline. -/
theorem christofides_negative_not_error :
    christofides_tsp (fun _ => Except.error ()) [[0, -1], [-1, 0]] =
      Except.ok ([0, 1, 0], -2) := by
  norm_num [christofides_tsp, _nearest_neighbor_fallback, nnLoop, argminKey, entryD,
    List.range_succ]

/-- Amended C2: the structured validation error propagates for empty,
fewer-than-2-node, and non-square matrices; a negative off-diagonal
distance instead triggers the greedy nearest-neighbor fallback (its
`ValueError` is swallowed by the catch-all handler), and the greedy
fallback is also used for any graph-library exception, while a successful
pipeline run is returned as-is. -/
theorem christofides_tsp_error_handling
    (pl : List (List ℚ) → Except Unit (List Nat × ℚ)) (D : List (List ℚ)) :
    (D.length < 2 → ∃ msg, christofides_tsp pl D = Except.error msg) ∧
    (2 ≤ D.length → (∃ row ∈ D, row.length ≠ D.length) →
      ∃ msg, christofides_tsp pl D = Except.error msg) ∧
    (2 ≤ D.length → (∀ row ∈ D, row.length = D.length) →
      (∃ i j, i < j ∧ j < D.length ∧ entryD D i j < 0) →
      christofides_tsp pl D = Except.ok (_nearest_neighbor_fallback D)) ∧
    (2 ≤ D.length → (∀ row ∈ D, row.length = D.length) →
      (∀ i j, i < j → j < D.length → 0 ≤ entryD D i j) →
      ∀ e, pl D = Except.error e →
        christofides_tsp pl D = Except.ok (_nearest_neighbor_fallback D)) ∧
    (2 ≤ D.length → (∀ row ∈ D, row.length = D.length) →
      (∀ i j, i < j → j < D.length → 0 ≤ entryD D i j) →
      ∀ r, pl D = Except.ok r → christofides_tsp pl D = Except.ok r) := by
  refine ⟨?_, ?_, ?_, ?_, ?_⟩
  · intro hlen
    unfold christofides_tsp
    by_cases h0 : D.length = 0
    · rw [if_pos h0]
      exact ⟨_, rfl⟩
    · rw [if_neg h0, if_pos hlen]
      exact ⟨_, rfl⟩
  · intro hlen hbad
    unfold christofides_tsp
    rw [if_neg (by omega), if_neg (by omega), if_pos (by
      simp only [List.any_eq_true, decide_eq_true_eq]
      exact hbad)]
    exact ⟨_, rfl⟩
  · intro hlen hsq hneg
    unfold christofides_tsp
    rw [if_neg (by omega), if_neg (by omega),
      if_neg (by
        simp only [List.any_eq_true, decide_eq_true_eq]
        push_neg
        intro row hrow
        exact hsq row hrow),
      if_pos (by
        simp only [List.any_eq_true, decide_eq_true_eq, List.mem_range]
        obtain ⟨i, j, hij, hjn, hd⟩ := hneg
        exact ⟨i, by omega, j, hjn, hij, hd⟩)]
  · intro hlen hsq hpos e hpl
    unfold christofides_tsp
    rw [if_neg (by omega), if_neg (by omega),
      if_neg (by
        simp only [List.any_eq_true, decide_eq_true_eq]
        push_neg
        intro row hrow
        exact hsq row hrow),
      if_neg (by
        simp only [List.any_eq_true, decide_eq_true_eq, List.mem_range]
        push_neg
        intro i hi j hj hij
        exact hpos i j hij hj),
      hpl]
  · intro hlen hsq hpos r hpl
    unfold christofides_tsp
    rw [if_neg (by omega), if_neg (by omega),
      if_neg (by
        simp only [List.any_eq_true, decide_eq_true_eq]
        push_neg
        intro row hrow
        exact hsq row hrow),
      if_neg (by
        simp only [List.any_eq_true, decide_eq_true_eq, List.mem_range]
        push_neg
        intro i hi j hj hij
        exact hpos i j hij hj),
      hpl]

/-- Witness for `christofides_tsp_error_handling`: a 1×1 matrix yields a
propagated validation error. -/
theorem christofides_tsp_error_handling_witness :
    ∃ msg, christofides_tsp (fun _ => Except.error ()) [[(0 : ℚ)]] =
      Except.error msg :=
  (christofides_tsp_error_handling (fun _ => Except.error ()) [[(0 : ℚ)]]).1
    (by decide)

/-- The claim "auto mode runs the exact solver iff the non-depot stop count
is at most the threshold (12)" fails: with exactly 12 non-depot stops the
coordinate list has 13 entries and the worker picks Christofides. -/
theorem auto_mode_threshold_counterexample :
    (List.replicate 12 ((0 : ℚ), (0 : ℚ))).length ≤ MAX_STOPS_EXACT_ALGORITHM ∧
    selectAlgorithm 0
      (getCoordinates ((24848 / 1000 : ℚ), (67032 / 1000 : ℚ))
        (List.replicate 12 ((0 : ℚ), (0 : ℚ)))).length = Algorithm.christofides := by
  constructor
  · decide
  · rfl

/-- Amended C4: in auto mode the worker runs Held-Karp iff the full
coordinate count (depot included) is at most the threshold, i.e. iff the
non-depot stop count is at most threshold - 1 (11 by default); otherwise it
runs Christofides. -/
theorem auto_mode_selection (hq : ℚ × ℚ) (stops : List (ℚ × ℚ)) :
    (selectAlgorithm 0 (getCoordinates hq stops).length = Algorithm.heldKarp ↔
      stops.length ≤ MAX_STOPS_EXACT_ALGORITHM - 1) ∧
    (selectAlgorithm 0 (getCoordinates hq stops).length = Algorithm.christofides ↔
      MAX_STOPS_EXACT_ALGORITHM - 1 < stops.length) := by
  unfold selectAlgorithm getCoordinates MAX_STOPS_EXACT_ALGORITHM
  rw [if_neg (by norm_num), if_neg (by norm_num)]
  show ((if stops.length + 1 ≤ 12 then Algorithm.heldKarp else Algorithm.christofides)
      = Algorithm.heldKarp ↔ stops.length ≤ 11) ∧
    ((if stops.length + 1 ≤ 12 then Algorithm.heldKarp else Algorithm.christofides)
      = Algorithm.christofides ↔ 11 < stops.length)
  split_ifs with h
  · constructor
    · constructor
      · intro _; omega
      · intro _; rfl
    · constructor
      · intro he; cases he
      · intro hlt; exact absurd hlt (by omega)
  · constructor
    · constructor
      · intro he; cases he
      · intro hle; exact absurd hle (by omega)
    · constructor
      · intro _; omega
      · intro _; rfl

theorem haversine_distance_symm (p1 p2 : ℝ × ℝ) :
    haversine_distance p1 p2 = haversine_distance p2 p1 := by
  unfold haversine_distance
  dsimp only
  have hlat : Real.sin ((radians p2.1 - radians p1.1) / 2) ^ 2
      = Real.sin ((radians p1.1 - radians p2.1) / 2) ^ 2 := by
    rw [show radians p2.1 - radians p1.1 = -(radians p1.1 - radians p2.1) by ring,
      neg_div, Real.sin_neg, neg_sq]
  have hlon : Real.sin ((radians p2.2 - radians p1.2) / 2) ^ 2
      = Real.sin ((radians p1.2 - radians p2.2) / 2) ^ 2 := by
    rw [show radians p2.2 - radians p1.2 = -(radians p1.2 - radians p2.2) by ring,
      neg_div, Real.sin_neg, neg_sq]
  rw [hlat, hlon, mul_comm (Real.cos (radians p1.1)) (Real.cos (radians p2.1))]

theorem atan2_nonneg (y x : ℝ) (hy : 0 ≤ y) : 0 ≤ atan2 y x := by
  unfold atan2
  exact Complex.arg_nonneg_iff.mpr hy

theorem haversine_distance_nonneg (p1 p2 : ℝ × ℝ) :
    0 ≤ haversine_distance p1 p2 := by
  unfold haversine_distance
  dsimp only
  have key : ∀ a b : ℝ, 0 ≤ 6371.0 * (2 * atan2 (Real.sqrt a) (Real.sqrt b)) := by
    intro a b
    have h := atan2_nonneg (Real.sqrt a) (Real.sqrt b) (Real.sqrt_nonneg a)
    have h2 : (0 : ℝ) ≤ 2 * atan2 (Real.sqrt a) (Real.sqrt b) := by linarith
    linarith
  exact key _ _

theorem matWF_replicate (n : Nat) :
    MatWF (List.replicate n (List.replicate n (0 : ℝ))) n := by
  constructor
  · exact List.length_replicate n _
  · intro row hrow
    rw [List.eq_of_mem_replicate hrow]
    exact List.length_replicate n _

theorem matWF_setEntry {M : List (List ℝ)} {n : Nat} (h : MatWF M n)
    {i j : Nat} (hi : i < n) (hj : j < n) (x : ℝ) : MatWF (setEntry M i j x) n := by
  obtain ⟨hlen, hrow⟩ := h
  have hiM : i < M.length := by omega
  constructor
  · rw [setEntry, List.length_set, hlen]
  · intro row hr
    rcases List.mem_or_eq_of_mem_set hr with h | h
    · exact hrow row h
    · subst h
      rw [List.length_set, List.getD_eq_getElem _ _ hiM]
      exact hrow _ (List.getElem_mem hiM)

theorem entryR_setEntry {M : List (List ℝ)} {n : Nat} (hwf : MatWF M n)
    {i j : Nat} (hi : i < n) (hj : j < n) (x : ℝ) (a b : Nat) :
    entryR (setEntry M i j x) a b =
      if a = i ∧ b = j then x else entryR M a b := by
  obtain ⟨hlen, hrow⟩ := hwf
  have hiM : i < M.length := by omega
  have hrowi : (M.getD i []).length = n := by
    rw [List.getD_eq_getElem _ _ hiM]
    exact hrow _ (List.getElem_mem hiM)
  unfold entryR setEntry
  by_cases ha : a = i
  · subst ha
    have hget : (M.set a ((M.getD a []).set j x)).getD a [] = (M.getD a []).set j x := by
      rw [List.getD_eq_getElem _ _ (by rw [List.length_set]; exact hiM)]
      rw [List.getElem_set_self]
    rw [hget]
    by_cases hb : b = j
    · subst hb
      rw [if_pos ⟨rfl, rfl⟩]
      rw [List.getD_eq_getElem _ _ (by rw [List.length_set, hrowi]; exact hj)]
      rw [List.getElem_set_self]
    · rw [if_neg (fun h => hb h.2)]
      rw [List.getD_eq_getElem?_getD, List.getElem?_set_ne (fun h => hb h.symm),
        ← List.getD_eq_getElem?_getD]
  · rw [if_neg (fun h => ha h.1)]
    have hoth : (M.set i ((M.getD i []).set j x)).getD a [] = M.getD a [] := by
      rw [List.getD_eq_getElem?_getD, List.getElem?_set_ne (fun h => ha h.symm),
        ← List.getD_eq_getElem?_getD]
    rw [hoth]

theorem mem_orderedPairs (n : Nat) (p : Nat × Nat) :
    p ∈ orderedPairs n ↔ p.1 < p.2 ∧ p.2 < n := by
  obtain ⟨i, j⟩ := p
  unfold orderedPairs
  simp only [List.mem_bind, List.mem_map, List.mem_filter, List.mem_range,
    decide_eq_true_eq]
  constructor
  · rintro ⟨i', hi', j', ⟨hj', hij'⟩, heq⟩
    obtain ⟨rfl, rfl⟩ := Prod.mk.injEq .. ▸ heq
    simp only [Prod.mk.injEq] at heq
    exact ⟨hij', hj'⟩
  · rintro ⟨hij, hjn⟩
    exact ⟨i, by omega, j, ⟨hjn, hij⟩, rfl⟩

theorem entryR_zero_matrix (n a b : Nat) (ha : a < n) :
    entryR (List.replicate n (List.replicate n (0 : ℝ))) a b = 0 := by
  unfold entryR
  have houter : (List.replicate n (List.replicate n (0 : ℝ))).getD a []
      = List.replicate n 0 := by
    rw [List.getD_eq_getElem _ _ (by rw [List.length_replicate]; exact ha),
      List.getElem_replicate]
  rw [houter]
  by_cases hb : b < n
  · rw [List.getD_eq_getElem _ _ (by rw [List.length_replicate]; exact hb),
      List.getElem_replicate]
  · rw [List.getD_eq_default _ _ (by rw [List.length_replicate]; omega)]

/-- Filling the matrix pair by pair: after the fold, the entry at `(a, b)`
is the pair value if the unordered pair `{a, b}` was written, and the
initial entry otherwise. -/
theorem foldl_fill_entry (v : Nat → Nat → ℝ) (n : Nat) :
    ∀ (ps : List (Nat × Nat)) (M : List (List ℝ)), MatWF M n →
      (∀ p ∈ ps, p.1 < p.2 ∧ p.2 < n) →
      MatWF (ps.foldl (fun M p =>
        setEntry (setEntry M p.1 p.2 (v p.1 p.2)) p.2 p.1 (v p.1 p.2)) M) n ∧
      ∀ a b, a < n → b < n →
        entryR (ps.foldl (fun M p =>
          setEntry (setEntry M p.1 p.2 (v p.1 p.2)) p.2 p.1 (v p.1 p.2)) M) a b =
          if (min a b, max a b) ∈ ps then v (min a b) (max a b)
          else entryR M a b := by
  intro ps
  induction ps with
  | nil =>
    intro M hwf _
    refine ⟨hwf, ?_⟩
    intro a b _ _
    rw [if_neg (List.not_mem_nil _)]
    rfl
  | cons p rest ih =>
    intro M hwf hps
    obtain ⟨i, j⟩ := p
    obtain ⟨hij, hjn⟩ := hps (i, j) (List.mem_cons_self _ _)
    simp only at hij hjn
    have hin : i < n := by omega
    have hwf1 : MatWF (setEntry M i j (v i j)) n := matWF_setEntry hwf hin hjn _
    have hwf2 : MatWF (setEntry (setEntry M i j (v i j)) j i (v i j)) n :=
      matWF_setEntry hwf1 hjn hin _
    obtain ⟨hwfF, hentF⟩ := ih _ hwf2 (fun q hq => hps q (List.mem_cons_of_mem _ hq))
    refine ⟨hwfF, ?_⟩
    intro a b ha hb
    simp only [List.foldl_cons]
    rw [hentF a b ha hb]
    have hM2 : entryR (setEntry (setEntry M i j (v i j)) j i (v i j)) a b =
        if a = j ∧ b = i then v i j
        else if a = i ∧ b = j then v i j else entryR M a b := by
      rw [entryR_setEntry hwf1 hjn hin _ a b, entryR_setEntry hwf hin hjn _ a b]
    by_cases hrest : (min a b, max a b) ∈ rest
    · rw [if_pos hrest, if_pos (List.mem_cons_of_mem _ hrest)]
    · rw [if_neg hrest]
      by_cases heq : (min a b, max a b) = (i, j)
      · rw [if_pos (List.mem_cons.mpr (Or.inl heq)), hM2]
        have hmin : min a b = i := congrArg Prod.fst heq
        have hmax : max a b = j := congrArg Prod.snd heq
        by_cases hab : a ≤ b
        · have hai : a = i := by omega
          have hbj : b = j := by omega
          subst hai
          subst hbj
          rw [if_neg (by omega), if_pos ⟨rfl, rfl⟩, hmin, hmax]
        · have haj : a = j := by omega
          have hbi : b = i := by omega
          subst haj
          subst hbi
          rw [if_pos ⟨rfl, rfl⟩, hmin, hmax]
      · have hch : (min a b, max a b) ∉ ((i, j) :: rest : List (Nat × Nat)) := by
          intro h
          rcases List.mem_cons.mp h with h | h
          · exact heq h
          · exact hrest h
        rw [if_neg hch, hM2]
        have h1 : ¬(a = j ∧ b = i) := by
          intro hcon
          obtain ⟨ha1, hb1⟩ := hcon
          apply heq
          simp only [Prod.mk.injEq]
          omega
        have h2 : ¬(a = i ∧ b = j) := by
          intro hcon
          obtain ⟨ha1, hb1⟩ := hcon
          apply heq
          simp only [Prod.mk.injEq]
          omega
        rw [if_neg h1, if_neg h2]

/-- C10: every diagonal entry of the matrix returned by `distance_matrix`
is 0: the pairwise loops only fill unordered pairs `i < j` (mirrored), so
the zero-initialized diagonal is never overwritten, not even by the
haversine substitution. -/
theorem distance_matrix_diag_zero (spd : Nat → Nat → Option ℝ)
    (pos : Nat → ℝ × ℝ) (nodes : List Nat) (i : Nat) (hi : i < nodes.length) :
    entryR (distance_matrix spd pos nodes) i i = 0 := by
  unfold distance_matrix
  dsimp only
  obtain ⟨_, hent⟩ := foldl_fill_entry (pairDistance spd pos nodes) nodes.length
    (orderedPairs nodes.length) _ (matWF_replicate _)
    (fun p hp => by
      have := (mem_orderedPairs nodes.length p).mp hp
      exact ⟨this.1, this.2⟩)
  rw [hent i i hi hi]
  rw [if_neg (by
    intro h
    have := (mem_orderedPairs nodes.length _).mp h
    simp only [min_self, max_self] at this
    omega)]
  exact entryR_zero_matrix _ i i hi

/-- Witness for `distance_matrix_diag_zero` at a concrete input. -/
theorem distance_matrix_diag_zero_witness :
    (0 : Nat) < ([5, 9] : List Nat).length ∧
    entryR (distance_matrix (fun _ _ => some 3) (fun _ => (0, 0)) [5, 9]) 0 0 = 0 :=
  ⟨by decide, distance_matrix_diag_zero (fun _ _ => some 3) (fun _ => (0, 0)) [5, 9] 0
    (by decide)⟩

/-- C6: for every graph (abstracted by a symmetric shortest-path-distance
oracle with non-negative outputs, the contract of Dijkstra on a road
network) and node list, `distance_matrix` returns a square n×n matrix,
symmetric and non-negative, whose off-diagonal entries are the
shortest-path distance when a path exists and the haversine great-circle
distance (Earth radius 6371.0 km) times 1000 otherwise. -/
theorem distance_matrix_spec (spd : Nat → Nat → Option ℝ) (pos : Nat → ℝ × ℝ)
    (nodes : List Nat)
    (hsymm : ∀ u v, spd u v = spd v u)
    (hnonneg : ∀ u v L, spd u v = some L → 0 ≤ L) :
    (distance_matrix spd pos nodes).length = nodes.length ∧
    (∀ row ∈ distance_matrix spd pos nodes, row.length = nodes.length) ∧
    (∀ i j, i < nodes.length → j < nodes.length →
      entryR (distance_matrix spd pos nodes) i j =
        entryR (distance_matrix spd pos nodes) j i) ∧
    (∀ i j, i < nodes.length → j < nodes.length →
      0 ≤ entryR (distance_matrix spd pos nodes) i j) ∧
    (∀ i j, i < nodes.length → j < nodes.length → i ≠ j →
      entryR (distance_matrix spd pos nodes) i j =
        pairDistance spd pos nodes i j) := by
  have hpair_symm : ∀ a b : Nat,
      pairDistance spd pos nodes a b = pairDistance spd pos nodes b a := by
    intro a b
    unfold pairDistance
    cases hspd : spd (nodes.getD a 0) (nodes.getD b 0) with
    | some L =>
      have h2 : spd (nodes.getD b 0) (nodes.getD a 0) = some L := by
        rw [hsymm]
        exact hspd
      rw [h2]
    | none =>
      have h2 : spd (nodes.getD b 0) (nodes.getD a 0) = none := by
        rw [hsymm]
        exact hspd
      rw [h2]
      show haversine_distance (pos (nodes.getD a 0)) (pos (nodes.getD b 0)) * 1000
        = haversine_distance (pos (nodes.getD b 0)) (pos (nodes.getD a 0)) * 1000
      rw [haversine_distance_symm]
  have hpair_nonneg : ∀ a b : Nat, 0 ≤ pairDistance spd pos nodes a b := by
    intro a b
    unfold pairDistance
    cases hspd : spd (nodes.getD a 0) (nodes.getD b 0) with
    | some L =>
      show (0 : ℝ) ≤ L
      exact hnonneg _ _ L hspd
    | none =>
      show (0 : ℝ) ≤ haversine_distance (pos (nodes.getD a 0)) (pos (nodes.getD b 0)) * 1000
      exact mul_nonneg (haversine_distance_nonneg _ _) (by norm_num)
  obtain ⟨hwf, hent⟩ := foldl_fill_entry (pairDistance spd pos nodes) nodes.length
    (orderedPairs nodes.length) _ (matWF_replicate _)
    (fun p hp => by
      have := (mem_orderedPairs nodes.length p).mp hp
      exact ⟨this.1, this.2⟩)
  have hDM : ∀ a b, a < nodes.length → b < nodes.length →
      entryR (distance_matrix spd pos nodes) a b =
        if (min a b, max a b) ∈ orderedPairs nodes.length
        then pairDistance spd pos nodes (min a b) (max a b)
        else entryR (List.replicate nodes.length
          (List.replicate nodes.length (0 : ℝ))) a b := by
    intro a b ha hb
    unfold distance_matrix
    dsimp only
    exact hent a b ha hb
  have hoffdiag : ∀ a b, a < nodes.length → b < nodes.length → a ≠ b →
      entryR (distance_matrix spd pos nodes) a b =
        pairDistance spd pos nodes (min a b) (max a b) := by
    intro a b ha hb hab
    rw [hDM a b ha hb, if_pos ((mem_orderedPairs nodes.length _).mpr (by
      constructor
      · omega
      · omega))]
  refine ⟨?_, ?_, ?_, ?_, ?_⟩
  · have : MatWF (distance_matrix spd pos nodes) nodes.length := by
      unfold distance_matrix
      dsimp only
      exact hwf
    exact this.1
  · have : MatWF (distance_matrix spd pos nodes) nodes.length := by
      unfold distance_matrix
      dsimp only
      exact hwf
    exact this.2
  · intro i j hi hj
    by_cases hij : i = j
    · subst hij
      rfl
    · rw [hoffdiag i j hi hj hij, hoffdiag j i hj hi (fun h => hij h.symm),
        min_comm, max_comm]
  · intro i j hi hj
    by_cases hij : i = j
    · subst hij
      rw [hDM i i hi hi, if_neg (by
        intro h
        have := (mem_orderedPairs nodes.length _).mp h
        simp only [min_self, max_self] at this
        omega)]
      rw [entryR_zero_matrix _ i i hi]
    · rw [hoffdiag i j hi hj hij]
      exact hpair_nonneg _ _
  · intro i j hi hj hij
    rw [hoffdiag i j hi hj hij]
    by_cases hle : i ≤ j
    · rw [min_eq_left hle, max_eq_right hle]
    · rw [min_eq_right (by omega), max_eq_left (by omega)]
      exact (hpair_symm j i)

/-- Witness for `distance_matrix_spec` at a concrete oracle. -/
theorem distance_matrix_spec_witness :
    (∀ u v : Nat, (fun (_ _ : Nat) => some (1 : ℝ)) u v
      = (fun (_ _ : Nat) => some (1 : ℝ)) v u) ∧
    ((distance_matrix (fun _ _ => some 1) (fun _ => (0, 0)) [5, 9]).length = 2 ∧
      (∀ row ∈ distance_matrix (fun _ _ => some 1) (fun _ => (0, 0)) [5, 9],
        row.length = 2) ∧
      (∀ i j, i < 2 → j < 2 →
        entryR (distance_matrix (fun _ _ => some 1) (fun _ => (0, 0)) [5, 9]) i j =
          entryR (distance_matrix (fun _ _ => some 1) (fun _ => (0, 0)) [5, 9]) j i) ∧
      (∀ i j, i < 2 → j < 2 →
        0 ≤ entryR (distance_matrix (fun _ _ => some 1) (fun _ => (0, 0)) [5, 9]) i j) ∧
      (∀ i j, i < 2 → j < 2 → i ≠ j →
        entryR (distance_matrix (fun _ _ => some 1) (fun _ => (0, 0)) [5, 9]) i j =
          pairDistance (fun _ _ => some 1) (fun _ => (0, 0)) [5, 9] i j)) :=
  ⟨fun _ _ => rfl,
    distance_matrix_spec (fun _ _ => some 1) (fun _ => (0, 0)) [5, 9]
      (fun _ _ => rfl) (fun _ _ L hL => by
        have : L = 1 := by
          have := Option.some.injEq .. ▸ hL
          simpa using hL.symm
        rw [this]
        norm_num)⟩

theorem resolveLoop_result (seen : List Nat) (q : Nat → Nat) (o : Nat) :
    ∀ jtr, jtr ≤ 20 →
      ((resolveLoop seen q o jtr).2 = false → (resolveLoop seen q o jtr).1 ∉ seen) ∧
      ((resolveLoop seen q o jtr).2 = true → (resolveLoop seen q o jtr).1 = o) ∧
      ((∀ t, jtr ≤ t → t ≤ 20 → q t ∈ seen) → resolveLoop seen q o jtr = (o, true)) := by
  have main : ∀ k jtr, jtr ≤ 20 → 20 - jtr = k →
      ((resolveLoop seen q o jtr).2 = false → (resolveLoop seen q o jtr).1 ∉ seen) ∧
      ((resolveLoop seen q o jtr).2 = true → (resolveLoop seen q o jtr).1 = o) ∧
      ((∀ t, jtr ≤ t → t ≤ 20 → q t ∈ seen) → resolveLoop seen q o jtr = (o, true)) := by
    intro k
    induction k with
    | zero =>
      intro jtr hle hk
      have hj : jtr = 20 := by omega
      subst hj
      rw [resolveLoop]
      by_cases hmem : q 20 ∈ seen
      · rw [if_neg (by simpa using hmem), if_pos (by omega)]
        refine ⟨(fun h => by cases h), (fun _ => rfl), (fun _ => rfl)⟩
      · rw [if_pos hmem]
        refine ⟨(fun _ => hmem), (fun h => by cases h),
          (fun hall => absurd (hall 20 le_rfl le_rfl) hmem)⟩
    | succ k ihk =>
      intro jtr hle hk
      rw [resolveLoop]
      by_cases hmem : q jtr ∈ seen
      · rw [if_neg (by simpa using hmem), if_neg (by omega)]
        obtain ⟨h1, h2, h3⟩ := ihk (jtr + 1) (by omega) (by omega)
        exact ⟨h1, h2, fun hall => h3 (fun t ht1 ht2 => hall t (by omega) ht2)⟩
      · rw [if_pos hmem]
        refine ⟨(fun _ => hmem), (fun h => by cases h),
          (fun hall => absurd (hall jtr le_rfl hle) hmem)⟩
  intro jtr hle
  exact main (20 - jtr) jtr hle rfl

theorem resolveStep_inv (query : Nat → Nat → Nat) (orig : Nat → Nat)
    (disp : Nat → ℝ × ℝ) (st : ResolveState) (idx : Nat)
    (hinv : ResolveInv orig idx st) :
    ResolveInv orig (idx + 1) (resolveStep query orig disp st idx) := by
  obtain ⟨hlen, hseen, horig, hdist⟩ := hinv
  obtain ⟨hfresh, hesc, _⟩ :=
    resolveLoop_result st.seen (query idx) (orig idx) 0 (by omega)
  set res := resolveLoop st.seen (query idx) (orig idx) 0 with hres
  have hstep : (resolveStep query orig disp st idx).assigned = st.assigned ++ [res] ∧
      ((res.2 = true ∧ (resolveStep query orig disp st idx).seen = st.seen) ∨
        (res.2 = false ∧
          (resolveStep query orig disp st idx).seen = st.seen ++ [res.1])) := by
    unfold resolveStep
    rw [← hres]
    by_cases hflag : res.2
    · rw [if_pos hflag]
      exact ⟨rfl, Or.inl ⟨hflag, rfl⟩⟩
    · rw [if_neg hflag]
      exact ⟨rfl, Or.inr ⟨Bool.not_eq_true _ |>.mp hflag, rfl⟩⟩
  obtain ⟨hasg, hseen2⟩ := hstep
  have hget_old : ∀ i, i < st.assigned.length →
      (resolveStep query orig disp st idx).assigned[i]? = st.assigned[i]? := by
    intro i hio
    rw [hasg, List.getElem?_append_left hio]
  have hget_new : (resolveStep query orig disp st idx).assigned[st.assigned.length]?
      = some res := by
    rw [hasg, List.getElem?_concat_length]
  have hget_cases : ∀ i e, (resolveStep query orig disp st idx).assigned[i]? = some e →
      (i < st.assigned.length ∧ st.assigned[i]? = some e) ∨
      (i = st.assigned.length ∧ e = res) := by
    intro i e he
    by_cases hio : i < st.assigned.length
    · exact Or.inl ⟨hio, by rw [← hget_old i hio]; exact he⟩
    · have hbound := (List.getElem?_eq_some_iff.mp he).1
      rw [hasg, List.length_append] at hbound
      simp at hbound
      have hieq : i = st.assigned.length := by omega
      subst hieq
      rw [hget_new] at he
      exact Or.inr ⟨rfl, (Option.some.injEq _ _ ▸ he).symm⟩
  have hmono : ∀ v, v ∈ st.seen → v ∈ (resolveStep query orig disp st idx).seen := by
    intro v hv
    rcases hseen2 with ⟨_, h⟩ | ⟨_, h⟩
    · rw [h]; exact hv
    · rw [h]; exact List.mem_append_left _ hv
  refine ⟨?_, ?_, ?_, ?_⟩
  · rw [hasg, List.length_append, hlen]
    rfl
  · -- fresh entries are in seen
    intro i e he hflag
    rcases hget_cases i e he with ⟨hio, hold⟩ | ⟨hieq, rfl⟩
    · exact hmono _ (hseen i e hold hflag)
    · rcases hseen2 with ⟨ht, _⟩ | ⟨_, h⟩
      · rw [hflag] at ht; cases ht
      · rw [h]
        exact List.mem_append_right _ (List.mem_singleton.mpr rfl)
  · -- escape entries carry the original nearest node
    intro i e he hflag
    rcases hget_cases i e he with ⟨hio, hold⟩ | ⟨hieq, rfl⟩
    · exact horig i e hold hflag
    · rw [hieq, hlen]
      exact hesc hflag
  · -- fresh entries are pairwise distinct
    intro i j ei ej hij hei hej hfi hfj
    rcases hget_cases j ej hej with ⟨hjo, hjold⟩ | ⟨hjeq, rfl⟩
    · have hio : i < st.assigned.length := by omega
      rcases hget_cases i ei hei with ⟨_, hiold⟩ | ⟨hieq, _⟩
      · exact hdist i j ei ej hij hiold hjold hfi hfj
      · omega
    · rcases hget_cases i ei hei with ⟨hio, hiold⟩ | ⟨hieq, _⟩
      · have hold : ei.1 ∈ st.seen := hseen i ei hiold hfi
        have hnew : res.1 ∉ st.seen := hfresh hfj
        intro h
        rw [h] at hold
        exact hnew hold
      · omega

/-- C8: each input coordinate receives exactly one node; entries accepted
without the escape hatch are pairwise distinct; an escape entry is the
coordinate's original nearest node accepted as a (possible) duplicate with
its stored position displaced by the randomized offset; and the retry loop
always terminates, escaping after the 20 retries are exhausted. -/
theorem resolve_nodes_spec (query : Nat → Nat → Nat) (orig : Nat → Nat)
    (disp : Nat → ℝ × ℝ) (pos0 : Nat → ℝ × ℝ) (count : Nat) :
    ((resolveNodes query orig disp pos0 count).assigned.length = count) ∧
    (∀ (i j : Nat) (ei ej : Nat × Bool), i < j →
      (resolveNodes query orig disp pos0 count).assigned[i]? = some ei →
      (resolveNodes query orig disp pos0 count).assigned[j]? = some ej →
      ei.2 = false → ej.2 = false → ei.1 ≠ ej.1) ∧
    (∀ (i : Nat) (e : Nat × Bool),
      (resolveNodes query orig disp pos0 count).assigned[i]? = some e →
      e.2 = true → e.1 = orig i) ∧
    (∀ (st : ResolveState) (idx : Nat),
      (resolveLoop st.seen (query idx) (orig idx) 0).2 = true →
      (resolveStep query orig disp st idx).pos (orig idx) =
        ((st.pos (orig idx)).1 + (disp idx).1, (st.pos (orig idx)).2 + (disp idx).2)) ∧
    (∀ (seen : List Nat) (q : Nat → Nat) (o : Nat),
      (∀ t, t ≤ 20 → q t ∈ seen) → resolveLoop seen q o 0 = (o, true)) := by
  have hinv : ResolveInv orig count (resolveNodes query orig disp pos0 count) := by
    unfold resolveNodes
    induction count with
    | zero =>
      refine ⟨rfl, ?_, ?_, ?_⟩
      · intro i e he; cases he
      · intro i e he; cases he
      · intro i j ei ej hij hei; cases hei
    | succ c ihc =>
      rw [List.range_succ, List.foldl_append]
      exact resolveStep_inv query orig disp _ c ihc
  obtain ⟨h1, _, h3, h4⟩ := hinv
  refine ⟨h1, h4, h3, ?_, ?_⟩
  · intro st idx hflag
    unfold resolveStep
    rw [if_pos hflag]
    have hroot := (resolveLoop_result st.seen (query idx) (orig idx) 0 (by omega)).2.1 hflag
    show (fun v => if v = (resolveLoop st.seen (query idx) (orig idx) 0).1
      then _ else st.pos v) (orig idx) = _
    rw [hroot]
    simp
  · intro seen q o hall
    exact (resolveLoop_result seen q o 0 (by omega)).2.2 (fun t _ ht2 => hall t ht2)

/-- Witness for `resolve_nodes_spec` at concrete oracles. -/
theorem resolve_nodes_spec_witness :
    (resolveNodes (fun _ _ => 7) (fun i => i) (fun _ => (1, 1))
      (fun _ => (0, 0)) 3).assigned.length = 3 :=
  (resolve_nodes_spec (fun _ _ => 7) (fun i => i) (fun _ => (1, 1))
    (fun _ => (0, 0)) 3).1

/-- Witness for `auto_mode_selection` at a concrete stop list. -/
theorem auto_mode_selection_witness :
    selectAlgorithm 0 (getCoordinates ((0 : ℚ), (0 : ℚ)) []).length
        = Algorithm.heldKarp ↔
      ([] : List (ℚ × ℚ)).length ≤ MAX_STOPS_EXACT_ALGORITHM - 1 :=
  (auto_mode_selection ((0 : ℚ), (0 : ℚ)) []).1

/-- C9: when the network-data fetch fails or raises (which presupposes it
was attempted, i.e. the coordinate list is nonempty — an empty list raises
at the `zip` before any fetch), `get_graph_and_nodes` returns without
raising the complete graph over the n input coordinates, node ids exactly
`0..n-1`, each node carrying `x` = longitude and `y` = latitude of its
coordinate, with node assignment `[0, 1, ..., n-1]`. -/
theorem get_graph_and_nodes_offline_fallback
    (resolve : EmbGraph → EmbGraph × List Nat) (coords : List (ℝ × ℝ))
    (hne : coords ≠ []) :
    ∃ g, get_graph_and_nodes none resolve coords
        = Except.ok (g, List.range coords.length) ∧
      g.nodeIds = List.range coords.length ∧
      (∀ i j : Nat, (i, j) ∈ g.edges ↔ i < j ∧ j < coords.length) ∧
      (∀ i, i < coords.length →
        g.x i = (coords.getD i (0, 0)).2 ∧ g.y i = (coords.getD i (0, 0)).1) := by
  refine ⟨fallbackGraph coords, ?_, rfl, ?_, ?_⟩
  · unfold get_graph_and_nodes
    rw [if_neg (by simpa using hne)]
  · intro i j
    show (i, j) ∈ orderedPairs coords.length ↔ _
    exact mem_orderedPairs coords.length (i, j)
  · intro i _
    exact ⟨rfl, rfl⟩

/-- Witness for `get_graph_and_nodes_offline_fallback` at one coordinate. -/
theorem get_graph_and_nodes_offline_fallback_witness :
    ∃ g, get_graph_and_nodes none (fun g => (g, [])) [((1 : ℝ), (2 : ℝ))]
        = Except.ok (g, List.range 1) ∧
      g.nodeIds = List.range 1 ∧
      (∀ i j : Nat, (i, j) ∈ g.edges ↔ i < j ∧ j < 1) ∧
      (∀ i, i < 1 →
        g.x i = ([((1 : ℝ), (2 : ℝ))].getD i (0, 0)).2 ∧
        g.y i = ([((1 : ℝ), (2 : ℝ))].getD i (0, 0)).1) :=
  get_graph_and_nodes_offline_fallback (fun g => (g, [])) [((1 : ℝ), (2 : ℝ))]
    (List.cons_ne_nil _ _)

/-- The round-trip claim fails for opaque-object attributes: an object is
serialized as `{"__object__": str(obj)}` and deserialized as the *string*
(`# Custom objects were converted to strings, keep as strings`), which is
not equal to the original object. -/
theorem serializer_roundtrip_counterexample :
    serializable_to_networkx (networkx_to_serializable
        { nodes := [(Sum.inr "a", [("k", PyAttr.obj "x")])], edges := [] }) ≠
      some { nodes := [(Sum.inr "a", [("k", PyAttr.obj "x")])], edges := [] } := by
  intro h
  have hval : serializable_to_networkx (networkx_to_serializable
      { nodes := [(Sum.inr "a", [("k", PyAttr.obj "x")])], edges := [] })
      = some { nodes := [(Sum.inr "a", [("k", PyAttr.val (JVal.s "x"))])],
               edges := [] } := by
    rfl
  rw [hval] at h
  have h2 := Option.some.injEq _ _ ▸ h
  simp only [Option.some.injEq] at h
  have h3 := congrArg PyGraph.nodes h
  simp at h3

theorem restore_serialize_attr (a : PyAttr) (ha : TameAttr a) :
    restore_object (serializeAttr a) = some a := by
  cases a with
  | val j =>
    cases j with
    | dict kvs =>
      obtain ⟨h1, h2, h3⟩ := ha
      show restore_object (JVal.dict kvs) = _
      simp only [restore_object, h1, h2, h3]
    | null => rfl
    | b v => rfl
    | num q => rfl
    | s v => rfl
    | arr l => rfl
  | geom w => rfl
  | setV l => rfl
  | obj s => cases ha

theorem optMap_map {α β : Type} (f : α → Option β) (g : α → β) (l : List α)
    (h : ∀ x ∈ l, f x = some (g x)) : optMap f l = some (l.map g) := by
  induction l with
  | nil => rfl
  | cons a t ih =>
    show (match f a, optMap f t with
      | some b, some bt => some (b :: bt)
      | _, _ => none) = _
    rw [h a (List.mem_cons_self a t), ih (fun x hx => h x (List.mem_cons_of_mem a hx))]
    rfl

theorem optMap_map_list {α β γ : Type} (f : β → Option γ) (h : α → β) (l : List α) :
    optMap f (l.map h) = optMap (fun x => f (h x)) l := by
  induction l with
  | nil => rfl
  | cons a t ih =>
    simp only [List.map_cons]
    show (match f (h a), optMap f (t.map h) with
      | some b, some bt => some (b :: bt)
      | _, _ => none) =
      (match f (h a), optMap (fun x => f (h x)) t with
      | some b, some bt => some (b :: bt)
      | _, _ => none)
    rw [ih]

theorem restoreAttrs_serializeAttrs (attrs : List (String × PyAttr))
    (h : ∀ p ∈ attrs, TameAttr p.2) :
    restoreAttrs (serializeAttrs attrs) = some attrs := by
  unfold restoreAttrs serializeAttrs
  rw [optMap_map_list]
  have h2 := optMap_map
    (fun p : String × PyAttr =>
      (restore_object (serializeAttr p.2)).map (fun a => (p.1, a)))
    (fun p => p) attrs ?_
  · rw [show attrs.map (fun p => p) = attrs from List.map_id attrs] at h2
    exact h2
  · intro p hp
    show (restore_object (serializeAttr p.2)).map (fun a => (p.1, a)) = some p
    rw [restore_serialize_attr p.2 (h p hp)]
    rfl

/-- Amended C5: the round trip `serializable_to_networkx ∘
networkx_to_serializable` reproduces the graph exactly — same node list,
same edge list, equal attribute values including geometry (via WKT) and
set values (via lists) — provided every node/edge id stringifies
reversibly (e.g. non-negative ints or non-digit strings, pairwise
distinct as strings, as a Python dict requires), and no attribute is an
opaque object and no plain dict value carries a serializer magic key;
an opaque-object attribute instead comes back as its string form. -/
theorem serializer_roundtrip (g : PyGraph)
    (hids : ∀ p ∈ g.nodes, restoreId (pyStr p.1) = p.1)
    (heids : ∀ e ∈ g.edges,
      restoreId (pyStr e.1) = e.1 ∧ restoreId (pyStr e.2.1) = e.2.1)
    (hdistinct : (g.nodes.map (fun p => pyStr p.1)).Nodup)
    (htame : ∀ p ∈ g.nodes, ∀ a ∈ p.2, TameAttr a.2)
    (hetame : ∀ e ∈ g.edges, ∀ a ∈ e.2.2, TameAttr a.2) :
    serializable_to_networkx (networkx_to_serializable g) = some g := by
  have hpt : ∀ p ∈ g.nodes,
      (restoreAttrs (serializeAttrs p.2)).map
        (fun attrs => (restoreId (pyStr p.1), attrs)) = some p := by
    intro p hp
    rw [restoreAttrs_serializeAttrs p.2 (fun a ha => htame p hp a ha)]
    show some (restoreId (pyStr p.1), p.2) = some p
    rw [hids p hp]
  have het : ∀ e ∈ g.edges,
      (restoreAttrs (serializeAttrs e.2.2)).map
        (fun attrs => (restoreId (pyStr e.1), restoreId (pyStr e.2.1), attrs))
      = some e := by
    intro e he
    rw [restoreAttrs_serializeAttrs e.2.2 (fun a ha => hetame e he a ha)]
    show some (restoreId (pyStr e.1), restoreId (pyStr e.2.1), e.2.2) = some e
    rw [(heids e he).1, (heids e he).2]
  have hn : optMap
      (fun p => (restoreAttrs p.2).map (fun attrs => (restoreId p.1, attrs)))
      (g.nodes.map (fun p => (pyStr p.1, serializeAttrs p.2))) = some g.nodes := by
    rw [optMap_map_list]
    have h2 := optMap_map
      (fun p : (Int ⊕ String) × List (String × PyAttr) =>
        (restoreAttrs (serializeAttrs p.2)).map
          (fun attrs => (restoreId (pyStr p.1), attrs)))
      (fun p => p) g.nodes hpt
    rw [show g.nodes.map (fun p => p) = g.nodes from List.map_id g.nodes] at h2
    exact h2
  have he : optMap
      (fun e => (restoreAttrs e.2.2).map
        (fun attrs => (restoreId e.1, restoreId e.2.1, attrs)))
      (g.edges.map (fun e => (pyStr e.1, pyStr e.2.1, serializeAttrs e.2.2)))
      = some g.edges := by
    rw [optMap_map_list]
    have h2 := optMap_map
      (fun e : (Int ⊕ String) × (Int ⊕ String) × List (String × PyAttr) =>
        (restoreAttrs (serializeAttrs e.2.2)).map
          (fun attrs => (restoreId (pyStr e.1), restoreId (pyStr e.2.1), attrs)))
      (fun e => e) g.edges het
    rw [show g.edges.map (fun e => e) = g.edges from List.map_id g.edges] at h2
    exact h2
  unfold serializable_to_networkx networkx_to_serializable
  dsimp only
  rw [hn, Option.some_bind, he, Option.map_some']

/-- Witness for `serializer_roundtrip` on a graph with a geometry, a set
and a plain numeric attribute. -/
theorem serializer_roundtrip_witness :
    serializable_to_networkx (networkx_to_serializable
        { nodes := [(Sum.inr "a", [("length", PyAttr.val (JVal.num 5))]),
                    (Sum.inr "b", [("ids", PyAttr.setV [JVal.num 1, JVal.num 2])])],
          edges := [(Sum.inr "a", Sum.inr "b",
            [("geometry", PyAttr.geom "LINESTRING (0 0, 1 1)")])] })
      = some
        { nodes := [(Sum.inr "a", [("length", PyAttr.val (JVal.num 5))]),
                    (Sum.inr "b", [("ids", PyAttr.setV [JVal.num 1, JVal.num 2])])],
          edges := [(Sum.inr "a", Sum.inr "b",
            [("geometry", PyAttr.geom "LINESTRING (0 0, 1 1)")])] } := by
  apply serializer_roundtrip
  · intro p hp
    rcases List.mem_cons.mp hp with rfl | hp2
    · rfl
    · rcases List.mem_cons.mp hp2 with rfl | hp3
      · rfl
      · cases hp3
  · intro e he
    rcases List.mem_cons.mp he with rfl | he2
    · exact ⟨rfl, rfl⟩
    · cases he2
  · show (["a", "b"] : List String).Nodup
    simp
  · intro p hp
    rcases List.mem_cons.mp hp with rfl | hp2
    · intro a ha
      rcases List.mem_cons.mp ha with rfl | ha2
      · exact trivial
      · cases ha2
    · rcases List.mem_cons.mp hp2 with rfl | hp3
      · intro a ha
        rcases List.mem_cons.mp ha with rfl | ha2
        · exact trivial
        · cases ha2
      · cases hp3
  · intro e he
    rcases List.mem_cons.mp he with rfl | he2
    · intro a ha
      rcases List.mem_cons.mp ha with rfl | ha2
      · exact trivial
      · cases ha2
    · cases he2

end RoutePlanner
